import Mathlib

/-!
# Directory scanner of `src/main.cpp`: flat scan, nested scan, sorter, flat renderer

A shallow embedding of the scanning core of `main.cpp` (`get_last_write_time`,
`get_dirstatistic`, `ChildInfo`, `DirInfo` with its two constructors, `sort_childs`,
`sort_childs_nested`, `load_recursive`, `print_childs`) and theorems about it.

## Model of the filesystem

* A path (`fs::path`) is the list of its components.
* The filesystem below a path is a finite tree of `Entry` values.  The order of a
  directory's `children` list is the order in which the directory iterators
  enumerate it.
* `is_directory()` / `is_regular_file()` are answered by the constructor of the entry;
  they follow a symbolic link, so the entry at the path of a link is the entry the link
  leads to.
* What the tree does not tell is an `Access` value: which paths cannot be asked for
  their status (an entry that is listed by a directory without search permission), and
  what `fs::weakly_canonical` makes of a path (normalisation and the resolution of
  symbolic links).  The
  constructor `ChildInfo::ChildInfo` and the flat scan are embedded over an `Access`
  (`ChildInfo.init_at`, `DirInfo.flat_at`); `ChildInfo.init` and `DirInfo.flat` are the
  same code in a filesystem where every status query succeeds and every path is in
  canonical form, without a symbolic link (`Access.ideal`).
* The size query of a regular file and the modification-time query of any entry may
  fail (`none`).  The overloads taking an `error_code` report the failure through it;
  the overloads without one throw `fs::filesystem_error`, modelled by `Except`: a scan
  constructor returns `.ok` with the object it built, or `.error` when it throws.
* A directory with `listable = false` cannot be opened for enumeration (permission
  denied): `recursive_directory_iterator` with `skip_permission_denied` does not
  descend into it, `directory_iterator` without that option throws.
* `localtime_r` followed by `strftime("%Y-%m-%d %H:%M:%S")` is a parameter
  `tz : Int → Option String` (`none`: the conversion to local time fails).
* `std::sort` is modelled by insertion sort under the same comparator.
* `uintmax_t` sums wrap modulo `2 ^ 64`; the entry counters and `int` values are
  unbounded.
* The renderer's output is a list of `Line` values; the text of the megabyte column
  (a floating point division) is not rendered, the row carries the byte size.
-/

namespace MyBackup

/-! ## Filesystem model -/

/-- An `fs::path`, as the list of its components. -/
abbrev Path := List String

/-- The order `a < b` of `fs::path`: lexicographic over the components, each
component compared character by character. -/
def path_lt (a b : Path) : Bool :=
  decide (a.map String.toList < b.map String.toList)

/-- An entry of the filesystem tree. -/
inductive Entry where
  | file (size : Option Nat) (mtime : Option Int)
  | dir (mtime : Option Int) (listable : Bool) (children : List (String × Entry))
  | other (mtime : Option Int)

instance : Inhabited Entry := ⟨.other none⟩

namespace Entry

/-- The value of `entry.is_directory()`. -/
def is_directory : Entry → Bool
  | dir _ _ _ => true
  | _ => false

/-- The value of `entry.is_regular_file()`. -/
def is_regular_file : Entry → Bool
  | file _ _ => true
  | _ => false

/-- The result of the modification-time query, `none` when it fails. -/
def last_write_time : Entry → Option Int
  | file _ t => t
  | dir t _ _ => t
  | other t => t

/-- The result of `fs::file_size`, `none` when it fails. -/
def file_size : Entry → Option Nat
  | file s _ => s
  | _ => none

end Entry

/-- The exception `fs::filesystem_error`. -/
inductive Throw where
  | filesystem_error
  deriving DecidableEq, Repr

mutual
/-- The entries a `recursive_directory_iterator` with `skip_permission_denied` visits
below the entry `e` at path `p`, whose own children are at depth `d`. -/
def descend (d : Nat) (p : Path) : Entry → List (Nat × Path × Entry)
  | .dir _ true cs => iterate d p cs
  | _ => []
/-- The pre-order enumeration of the entries `cs` of the directory `p`, each
with `it.depth()`, its path and the entry itself. -/
def iterate (d : Nat) (p : Path) : List (String × Entry) → List (Nat × Path × Entry)
  | [] => []
  | (n, e) :: rest => (d, p ++ [n], e) :: (descend (d + 1) (p ++ [n]) e ++ iterate d p rest)
end

/-- The sequence `fs::recursive_directory_iterator(root, skip_permission_denied, ec)`
runs through: triples of `it.depth()`, `entry.path()` and the entry. -/
def recursive_directory_iterator (root : Path) (e : Entry) : List (Nat × Path × Entry) :=
  descend 0 root e

/-- The function `path::lexically_relative(base)` on component lists: what is left of
`p` after the prefix it shares with `base`, preceded by one `..` for every component
left of `base`; `.` when nothing is left of either. -/
def lexically_relative : Path → Path → Path
  | a :: p, b :: base =>
    if a = b then lexically_relative p base
    else List.replicate (base.length + 1) ".." ++ (a :: p)
  | [], [] => ["."]
  | p, base => List.replicate base.length ".." ++ p

/-- What the filesystem answers about a path beyond the tree of entries.
`statable q` tells whether the status queries of `q` succeed (`entry.is_directory()`,
the queries inside `fs::relative`): they fail with an error for an entry that a
directory lists but that lies in a directory without search permission.
`canonical q` is `fs::weakly_canonical(q)`: the absolute, normalised path with its
symbolic links resolved. -/
structure Access where
  statable : Path → Bool
  canonical : Path → Path

/-- A filesystem in which every status query succeeds and no path holds a symbolic
link. -/
def Access.ideal : Access :=
  { statable := fun _ => true, canonical := fun q => q }

/-- The function `fs::relative(p, base)`, which is
`weakly_canonical(p).lexically_relative(weakly_canonical(base))`. -/
def relative (fs : Access) (p base : Path) : Path :=
  lexically_relative (fs.canonical p) (fs.canonical base)

/-! ## Timestamps -/

/-- The string left in `buf` by
`string buf(64, '\0'); len = strftime(&buf[2], buf.size(), ..); buf.resize(len);`
when the formatted time is `s`: `strftime` writes `s` and a terminating NUL from
position 2 on and returns the length of `s` (0 when `s` and the NUL do not fit in
64 characters); the buffer is then cut to the returned length. -/
def strftime_buf (s : String) : String :=
  let buf : List Char := List.replicate 64 '\x00'
  let written : List Char := buf.take 2 ++ s.toList ++ ['\x00'] ++ buf.drop (2 + s.length + 1)
  let len := if s.length + 1 ≤ 64 then s.length else 0
  String.mk (written.take len)

/-- The tuple overload `get_last_write_time(entry)`: `entry.last_write_time()` throws
when the query fails. -/
def get_last_write_time (tz : Int → Option String) (e : Entry) : Except Throw (String × Int) :=
  match e.last_write_time with
  | none => .error .filesystem_error
  | some sctp =>
    match tz sctp with
    | none => .ok ("N/A", sctp)
    | some s => .ok (strftime_buf s, sctp)

/-- The overload `get_last_write_time(entry, timestamp, sctp)` writing through its
reference parameters; returns their values after the call. -/
def get_last_write_time_into (tz : Int → Option String) (e : Entry)
    (timestamp : String) (sctp : Int) : String × Int :=
  match e.last_write_time with
  | none => ("", sctp)
  | some t =>
    match tz t with
    | none => (timestamp, t)
    | some s => (strftime_buf s, t)

/-! ## `ChildInfo` -/

/-- The enumerations `ChildInfo::Type` and `DirInfo::Type`. -/
inductive Kind where
  | Directory
  | File
  | Other
  deriving DecidableEq, Repr

/-- The struct `ChildInfo`: one record of the flat scan. -/
structure ChildInfo where
  type : Kind
  depth : Int := -1
  sctp : Int := 0
  timestamp : String := ""
  size : Nat := 0
  path : Path
  root : Path
  deriving DecidableEq, Repr

/-- The record `ChildInfo::ChildInfo(r, p)` leaves when none of its calls throws, where
`e` is the entry the status queries find at `p`: the depth counts the components of
`fs::relative(path, root)` from -1. -/
def ChildInfo.record_at (tz : Int → Option String) (fs : Access) (r p : Path) (e : Entry) :
    ChildInfo :=
  let rel := relative fs p r
  let depth : Int := -1 + rel.length
  let ts := get_last_write_time_into tz e "" 0
  if e.is_directory then
    { type := .Directory, depth := depth, sctp := ts.2, timestamp := ts.1, path := p, root := r }
  else if e.is_regular_file then
    { type := .File, depth := depth, sctp := ts.2, timestamp := ts.1,
      size := match e.file_size with
        | some s => s
        | none => 2 ^ 64 - 1,
      path := p, root := r }
  else
    { type := .Other, depth := depth, sctp := ts.2, timestamp := ts.1, path := p, root := r }

/-- The constructor `ChildInfo::ChildInfo(r, p)`.  Its calls `entry.is_directory()` and
`fs::relative(path, root)` are the overloads without an `error_code`: they throw
`fs::filesystem_error` when the status of `p` cannot be queried. -/
def ChildInfo.init_at (tz : Int → Option String) (fs : Access) (r p : Path) (e : Entry) :
    Except Throw ChildInfo :=
  if fs.statable p then .ok (ChildInfo.record_at tz fs r p e)
  else .error .filesystem_error

/-- The constructor `ChildInfo::ChildInfo(r, p)` in a filesystem where the status of `p`
can be queried and neither `p` nor `r` holds a symbolic link (`Access.ideal`), where
`e` is the entry found at `p`. -/
def ChildInfo.init (tz : Int → Option String) (r p : Path) (e : Entry) : ChildInfo :=
  let rel := lexically_relative p r
  let depth : Int := -1 + rel.length
  let ts := get_last_write_time_into tz e "" 0
  if e.is_directory then
    { type := .Directory, depth := depth, sctp := ts.2, timestamp := ts.1, path := p, root := r }
  else if e.is_regular_file then
    { type := .File, depth := depth, sctp := ts.2, timestamp := ts.1,
      size := match e.file_size with
        | some s => s
        | none => 2 ^ 64 - 1,
      path := p, root := r }
  else
    { type := .Other, depth := depth, sctp := ts.2, timestamp := ts.1, path := p, root := r }

/-- The function `ChildInfo::to_string`. -/
def ChildInfo.to_string : Kind → String
  | .File => "[F]"
  | .Directory => "[D]"
  | .Other => "[O]"

/-! ## `std::sort` -/

/-- Insert `x` into a sorted list, before the first element that is not less than it. -/
def sort_insert {α : Type} (lt : α → α → Bool) (x : α) : List α → List α
  | [] => [x]
  | y :: ys => if lt y x then y :: sort_insert lt x ys else x :: y :: ys

/-- The model of `std::sort(first, last, lt)`. -/
def std_sort {α : Type} (lt : α → α → Bool) : List α → List α
  | [] => []
  | x :: xs => sort_insert lt x (std_sort lt xs)

/-! ## `DirInfo` -/

/-- The struct `DirInfo`. -/
structure DirInfo where
  type : Kind
  sctp : Int := 0
  timestamp : String := ""
  size : Nat := 0
  path : Path
  max_depth : Int := 0
  num_childs_recursive : Nat := 0
  num_childs_dir_recursive : Nat := 0
  num_childs_file_recursive : Nat := 0
  num_childs_other_recursive : Nat := 0
  num_child : Nat := 0
  num_child_dir : Nat := 0
  num_child_file : Nat := 0
  num_child_other : Nat := 0
  childs_nested : List DirInfo
  childs : List ChildInfo := []

/-- Both overloads of `DirInfo::type_priority`. -/
def type_priority : Kind → Int
  | .File => 0
  | .Directory => 1
  | .Other => 2

/-- The comparator of `DirInfo::sort_childs_nested`. -/
def sort_childs_nested_cmp (a b : DirInfo) : Bool :=
  let pa := type_priority a.type
  let pb := type_priority b.type
  if pa ≠ pb then decide (pa < pb)
  else path_lt a.path b.path

/-- The method `DirInfo::sort_childs_nested`, on the child collection. -/
def sort_childs_nested (childs_nested : List DirInfo) : List DirInfo :=
  std_sort sort_childs_nested_cmp childs_nested

/-- The comparator of `DirInfo::sort_childs`. -/
def sort_childs_cmp (a b : ChildInfo) : Bool :=
  let pa := type_priority a.type
  let pb := type_priority b.type
  if a.depth ≠ b.depth then decide (a.depth < b.depth)
  else if pa ≠ pb then decide (pa < pb)
  else if a.sctp ≠ b.sctp then decide (a.sctp < b.sctp)
  else path_lt a.path b.path

/-- The method `DirInfo::sort_childs`, on the record collection. -/
def sort_childs (childs : List ChildInfo) : List ChildInfo :=
  std_sort sort_childs_cmp childs

/-- The timestamp of a path that does not exist: `"N/A"` followed by 16 spaces. -/
def timestamp_na : String := "N/A" ++ String.mk (List.replicate 16 ' ')

/-! ## The flat scan `DirInfo(p)` -/

/-- The variables the enumeration loop of `DirInfo(p)` updates. -/
structure FlatLoop where
  max_depth : Int
  childs : List ChildInfo
  num_childs_dir_recursive : Nat
  num_childs_file_recursive : Nat
  num_childs_other_recursive : Nat

/-- One iteration of the loop of `DirInfo(p)` over the recursive iterator. -/
def flat_step (tz : Int → Option String) (path : Path) (s : FlatLoop)
    (it : Nat × Path × Entry) : FlatLoop :=
  let entry := it.2.2
  let _depth : Int := (it.1 : Int)
  { max_depth := if _depth > s.max_depth then _depth else s.max_depth
    childs := s.childs ++ [ChildInfo.init tz path it.2.1 entry]
    num_childs_file_recursive :=
      if entry.is_regular_file then s.num_childs_file_recursive + 1
      else s.num_childs_file_recursive
    num_childs_dir_recursive :=
      if entry.is_regular_file then s.num_childs_dir_recursive
      else if entry.is_directory then s.num_childs_dir_recursive + 1
      else s.num_childs_dir_recursive
    num_childs_other_recursive :=
      if entry.is_regular_file then s.num_childs_other_recursive
      else if entry.is_directory then s.num_childs_other_recursive
      else s.num_childs_other_recursive + 1 }

/-- The loop of `DirInfo(p)` on a directory, from the state in which the constructor
enters it: `max_depth = 0`, no records, and `num_childs_dir_recursive` already
incremented once. -/
def flat_loop (tz : Int → Option String) (path : Path) (entry : Entry) : FlatLoop :=
  (recursive_directory_iterator path entry).foldl (flat_step tz path)
    { max_depth := 0, childs := [], num_childs_dir_recursive := 1,
      num_childs_file_recursive := 0, num_childs_other_recursive := 0 }

/-- The constructor `DirInfo::DirInfo(const fs::path& p)` in a filesystem where every
status query succeeds and no path holds a symbolic link (`Access.ideal`); `st` is what
the filesystem holds at `p` (`none`: the path does not exist). -/
def DirInfo.flat (tz : Int → Option String) (p : Path) (st : Option Entry) :
    Except Throw DirInfo :=
  match st with
  | none =>
    .ok { type := .Other, timestamp := timestamp_na, path := p, max_depth := -2,
          childs_nested := [] }
  | some entry =>
    if entry.is_directory then
      let s := flat_loop tz p entry
      match get_last_write_time tz entry with
      | .error x => .error x
      | .ok ts =>
        .ok { type := .Directory, sctp := ts.2, timestamp := ts.1, path := p,
              max_depth := s.max_depth,
              num_childs_recursive := s.num_childs_dir_recursive
                + s.num_childs_file_recursive + s.num_childs_other_recursive,
              num_childs_dir_recursive := s.num_childs_dir_recursive,
              num_childs_file_recursive := s.num_childs_file_recursive,
              num_childs_other_recursive := s.num_childs_other_recursive,
              num_child := 0 + 0 + 0,
              childs_nested := [],
              childs := sort_childs s.childs }
    else if entry.is_regular_file then
      match entry.file_size with
      | none => .error .filesystem_error
      | some size =>
        match get_last_write_time tz entry with
        | .error x => .error x
        | .ok ts =>
          .ok { type := .File, sctp := ts.2, timestamp := ts.1, size := size, path := p,
                max_depth := -1, childs_nested := [] }
    else
      match get_last_write_time tz entry with
      | .error x => .error x
      | .ok ts =>
        .ok { type := .Other, sctp := ts.2, timestamp := ts.1, path := p, max_depth := -2,
              childs_nested := [] }

/-- The loop of `DirInfo(p)` over the entries `l` the recursive iterator has still to
visit, from the state `s`.  `childs.emplace_back(path, entry.path())` runs the
constructor of `ChildInfo`; `DirInfo(p)` has no handler, so the first constructor that
throws ends the loop and the scan with its exception. -/
def flat_loop_at (tz : Int → Option String) (fs : Access) (path : Path) :
    List (Nat × Path × Entry) → FlatLoop → Except Throw FlatLoop
  | [], s => .ok s
  | it :: rest, s =>
    let entry := it.2.2
    let _depth : Int := (it.1 : Int)
    match ChildInfo.init_at tz fs path it.2.1 entry with
    | .error x => .error x
    | .ok c =>
      flat_loop_at tz fs path rest
        { max_depth := if _depth > s.max_depth then _depth else s.max_depth
          childs := s.childs ++ [c]
          num_childs_file_recursive :=
            if entry.is_regular_file then s.num_childs_file_recursive + 1
            else s.num_childs_file_recursive
          num_childs_dir_recursive :=
            if entry.is_regular_file then s.num_childs_dir_recursive
            else if entry.is_directory then s.num_childs_dir_recursive + 1
            else s.num_childs_dir_recursive
          num_childs_other_recursive :=
            if entry.is_regular_file then s.num_childs_other_recursive
            else if entry.is_directory then s.num_childs_other_recursive
            else s.num_childs_other_recursive + 1 }

/-- The constructor `DirInfo::DirInfo(const fs::path& p)`; `st` is what the filesystem
holds at `p` (`none`: the path does not exist or its status cannot be queried), `fs`
what it answers for the paths below. -/
def DirInfo.flat_at (tz : Int → Option String) (fs : Access) (p : Path) (st : Option Entry) :
    Except Throw DirInfo :=
  match st with
  | none =>
    .ok { type := .Other, timestamp := timestamp_na, path := p, max_depth := -2,
          childs_nested := [] }
  | some entry =>
    if entry.is_directory then
      match flat_loop_at tz fs p (recursive_directory_iterator p entry)
          { max_depth := 0, childs := [], num_childs_dir_recursive := 1,
            num_childs_file_recursive := 0, num_childs_other_recursive := 0 } with
      | .error x => .error x
      | .ok s =>
        match get_last_write_time tz entry with
        | .error x => .error x
        | .ok ts =>
          .ok { type := .Directory, sctp := ts.2, timestamp := ts.1, path := p,
                max_depth := s.max_depth,
                num_childs_recursive := s.num_childs_dir_recursive
                  + s.num_childs_file_recursive + s.num_childs_other_recursive,
                num_childs_dir_recursive := s.num_childs_dir_recursive,
                num_childs_file_recursive := s.num_childs_file_recursive,
                num_childs_other_recursive := s.num_childs_other_recursive,
                num_child := 0 + 0 + 0,
                childs_nested := [],
                childs := sort_childs s.childs }
    else if entry.is_regular_file then
      match entry.file_size with
      | none => .error .filesystem_error
      | some size =>
        match get_last_write_time tz entry with
        | .error x => .error x
        | .ok ts =>
          .ok { type := .File, sctp := ts.2, timestamp := ts.1, size := size, path := p,
                max_depth := -1, childs_nested := [] }
    else
      match get_last_write_time tz entry with
      | .error x => .error x
      | .ok ts =>
        .ok { type := .Other, sctp := ts.2, timestamp := ts.1, path := p, max_depth := -2,
              childs_nested := [] }

/-! ## `get_dirstatistic` -/

/-- The local variables of `get_dirstatistic`. -/
structure DirStat where
  dirsize : Nat := 0
  max_depth : Nat := 0
  num_childs_dir : Nat := 0
  num_childs_file : Nat := 0
  num_childs_other : Nat := 0

/-- One iteration of the loop of `get_dirstatistic`. -/
def dirstat_step (s : DirStat) (it : Nat × Path × Entry) : DirStat :=
  let entry := it.2.2
  let depth := it.1
  let s := { s with max_depth := if depth > s.max_depth then depth else s.max_depth }
  if entry.is_directory then
    { s with num_childs_dir := s.num_childs_dir + 1 }
  else if entry.is_regular_file then
    match entry.file_size with
    | some _size =>
      { s with num_childs_file := s.num_childs_file + 1,
               dirsize := (s.dirsize + _size) % 2 ^ 64 }
    | none => { s with num_childs_file := s.num_childs_file + 1 }
  else
    { s with num_childs_other := s.num_childs_other + 1 }

/-- The function `get_dirstatistic(root)`; the tuple is
`(dirsize, max_depth, num_childs, num_childs_dir, num_childs_file, num_childs_other)`. -/
def get_dirstatistic (root : Path) (e : Entry) : Nat × Nat × Nat × Nat × Nat × Nat :=
  let s := (recursive_directory_iterator root e).foldl dirstat_step {}
  (s.dirsize, s.max_depth, s.num_childs_dir + s.num_childs_file + s.num_childs_other,
    s.num_childs_dir, s.num_childs_file, s.num_childs_other)

/-! ## The nested scan `DirInfo(p, recurse_depth)` -/

/-- The members the enumeration loop of `DirInfo(p, recurse_depth)` updates. -/
structure NestedLoop where
  num_child_dir : Nat
  num_child_file : Nat
  num_child_other : Nat
  childs_nested : List DirInfo

/-- The members as the nested constructor finds them: no child counted or stored. -/
def NestedLoop.start : NestedLoop :=
  { num_child_dir := 0, num_child_file := 0, num_child_other := 0, childs_nested := [] }

mutual
/-- The constructor `DirInfo::DirInfo(const fs::path& p, int recurse_depth)` on an
entry that exists. -/
def DirInfo.nested_entry (tz : Int → Option String) (p : Path) (recurse_depth : Int) :
    Entry → Except Throw DirInfo
  | .dir mt listable cs =>
    let stat := get_dirstatistic p (.dir mt listable cs)
    let explored_depth : Int := 0
    let l : NestedLoop :=
      if explored_depth ≤ recurse_depth then
        -- `fs::directory_iterator(p)` throws on a directory that cannot be opened;
        -- the `catch` around the loop swallows the exception
        if listable then nested_loop tz p recurse_depth explored_depth cs NestedLoop.start
        else NestedLoop.start
      else NestedLoop.start
    match get_last_write_time tz (.dir mt listable cs) with
    | .error x => .error x
    | .ok ts =>
      .ok { type := .Directory, sctp := ts.2, timestamp := ts.1, size := stat.1, path := p,
            max_depth := (stat.2.1 : Int) + 1,
            num_childs_recursive := stat.2.2.1,
            num_childs_dir_recursive := stat.2.2.2.1,
            num_childs_file_recursive := stat.2.2.2.2.1,
            num_childs_other_recursive := stat.2.2.2.2.2,
            num_child := l.num_child_dir + l.num_child_file + l.num_child_other,
            num_child_dir := l.num_child_dir,
            num_child_file := l.num_child_file,
            num_child_other := l.num_child_other,
            childs_nested := sort_childs_nested l.childs_nested }
  | .file size mt =>
    match size with
    | none => .error .filesystem_error
    | some size =>
      match get_last_write_time tz (.file (some size) mt) with
      | .error x => .error x
      | .ok ts =>
        .ok { type := .File, sctp := ts.2, timestamp := ts.1, size := size, path := p,
              max_depth := -1, childs_nested := [] }
  | .other mt =>
    match get_last_write_time tz (.other mt) with
    | .error x => .error x
    | .ok ts =>
      .ok { type := .Other, sctp := ts.2, timestamp := ts.1, path := p, max_depth := -2,
            childs_nested := [] }
/-- The loop `for (const auto& e : fs::directory_iterator(p))` of the nested
constructor over the entries still to come.  A child constructor that throws leaves
the loop through the `catch` clause: the counter is already incremented, the child is
not added, and the remaining entries are not visited. -/
def nested_loop (tz : Int → Option String) (p : Path) (recurse_depth explored_depth : Int) :
    List (String × Entry) → NestedLoop → NestedLoop
  | [], s => s
  | (n, e) :: rest, s =>
    if e.is_directory then
      let s := { s with num_child_dir := s.num_child_dir + 1 }
      match DirInfo.nested_entry tz (p ++ [n]) (recurse_depth - explored_depth - 1) e with
      | .error _ => s
      | .ok d =>
        nested_loop tz p recurse_depth explored_depth rest
          { s with childs_nested := s.childs_nested ++ [d] }
    else if e.is_regular_file then
      let s := { s with num_child_file := s.num_child_file + 1 }
      match DirInfo.nested_entry tz (p ++ [n]) (-1) e with
      | .error _ => s
      | .ok d =>
        nested_loop tz p recurse_depth explored_depth rest
          { s with childs_nested := s.childs_nested ++ [d] }
    else
      let s := { s with num_child_other := s.num_child_other + 1 }
      match DirInfo.nested_entry tz (p ++ [n]) (-1) e with
      | .error _ => s
      | .ok d =>
        nested_loop tz p recurse_depth explored_depth rest
          { s with childs_nested := s.childs_nested ++ [d] }
end

/-- The constructor `DirInfo::DirInfo(const fs::path& p, int recurse_depth)`; `st` is
what the filesystem holds at `p` (`none`: the path does not exist). -/
def DirInfo.nested (tz : Int → Option String) (p : Path) (st : Option Entry)
    (recurse_depth : Int) : Except Throw DirInfo :=
  match st with
  | none =>
    .ok { type := .Other, timestamp := timestamp_na, path := p, max_depth := -2,
          childs_nested := [] }
  | some entry => DirInfo.nested_entry tz p recurse_depth entry

/-! ## The refresh `load_recursive` -/

/-- The loop `for (const auto& e : fs::directory_iterator(this->path, ..))` of
load_recursive over the entries still to come.  There is no `catch` here: a child
constructor that throws ends the call, with the counter already incremented and the
child not added.  Returns the members as the loop leaves them and the exception thrown,
if any. -/
def load_loop (tz : Int → Option String) (p : Path) (recurse_depth explored_depth : Int) :
    List (String × Entry) → NestedLoop → NestedLoop × Option Throw
  | [], s => (s, none)
  | (n, e) :: rest, s =>
    if e.is_directory then
      let s := { s with num_child_dir := s.num_child_dir + 1 }
      match DirInfo.nested_entry tz (p ++ [n]) (recurse_depth - explored_depth - 1) e with
      | .error x => (s, some x)
      | .ok d =>
        load_loop tz p recurse_depth explored_depth rest
          { s with childs_nested := s.childs_nested ++ [d] }
    else if e.is_regular_file then
      let s := { s with num_child_file := s.num_child_file + 1 }
      match DirInfo.nested_entry tz (p ++ [n]) (-1) e with
      | .error x => (s, some x)
      | .ok d =>
        load_loop tz p recurse_depth explored_depth rest
          { s with childs_nested := s.childs_nested ++ [d] }
    else
      let s := { s with num_child_other := s.num_child_other + 1 }
      match DirInfo.nested_entry tz (p ++ [n]) (-1) e with
      | .error x => (s, some x)
      | .ok d =>
        load_loop tz p recurse_depth explored_depth rest
          { s with childs_nested := s.childs_nested ++ [d] }

/-- The method `DirInfo::load_recursive(recurse_depth)` on the node `node`; `st` is what
the filesystem holds at the path of the node (`none`: nothing).  Returns the node as
the call leaves it and the exception the call ends with, if any. -/
def DirInfo.load_recursive (tz : Int → Option String) (node : DirInfo) (st : Option Entry)
    (recurse_depth : Int) : DirInfo × Option Throw :=
  match st with
  | some (.dir _ listable cs) =>
    let explored_depth : Int := 1
    let l : NestedLoop × Option Throw :=
      if recurse_depth ≥ 0 then
        -- with `skip_permission_denied` a directory that cannot be opened has no entries
        if listable then
          load_loop tz node.path recurse_depth explored_depth cs NestedLoop.start
        else (NestedLoop.start, none)
      else (NestedLoop.start, none)
    match l.2 with
    | some x =>
      ({ node with
          childs_nested := l.1.childs_nested,
          num_child_dir := l.1.num_child_dir,
          num_child_file := l.1.num_child_file,
          num_child_other := l.1.num_child_other }, some x)
    | none =>
      ({ node with
          childs_nested := sort_childs_nested l.1.childs_nested,
          num_child_dir := l.1.num_child_dir,
          num_child_file := l.1.num_child_file,
          num_child_other := l.1.num_child_other,
          num_child := l.1.num_child_dir + l.1.num_child_file + l.1.num_child_other }, none)
  | _ => (node, none)

/-! ## The flat renderer `print_childs` -/

/-- A line written to the output stream. -/
inductive Line where
  /-- A line of text. -/
  | text (s : String)
  /-- A label followed by a path. -/
  | labelled (label : String) (p : Path)
  /-- A report row: timestamp, indented kind tag, byte size (printed in megabytes)
  and path. -/
  | row (timestamp typestr : String) (size : Nat) (path : Path)
  deriving DecidableEq, Repr

/-- Both overloads of `DirInfo::allocate_typestr`. -/
def allocate_typestr (t : Kind) (num_indent : Int) (indent_char : Char) : String :=
  let num_indent := if num_indent < 0 then 0 else num_indent
  let indent := String.mk (List.replicate num_indent.toNat indent_char)
  match t with
  | .Directory => indent ++ "[D] "
  | .File => indent ++ "[F] "
  | .Other => indent ++ "[O] "

/-- The value of `typestr` after the assignments print_childs makes for the record
`c`; in an indent mode other than `-` and `|-` the variable keeps its value. -/
def child_typestr (num_indent : Nat) (indent_mode : String) (indent_char : Char)
    (typestr : String) (c : ChildInfo) : String :=
  let space := String.mk (List.replicate (num_indent + 1) ' ')
  if indent_mode = "-" then
    allocate_typestr c.type ((num_indent : Int) * (c.depth + 1)) indent_char
  else if indent_mode = "|-" then
    let leafLine := allocate_typestr c.type num_indent indent_char
    let treeSpace := String.join (List.replicate c.depth.toNat space)
    treeSpace ++ "|" ++ leafLine
  else typestr

/-- The loop of print_childs over the records still to come, with the current values
of `count`, `depth_printed` and `typestr`; returns the rows it writes. -/
def print_loop (disp_depth disp_num : Int) (num_indent : Nat) (indent_mode : String)
    (indent_char : Char) : List ChildInfo → Int → Int → String → List Line
  | [], _, _, _ => []
  | c :: rest, count, depth_printed, typestr =>
    if count < disp_num then
      if c.depth ≤ disp_depth then
        let typestr := child_typestr num_indent indent_mode indent_char typestr c
        Line.row c.timestamp typestr c.size c.path ::
          print_loop disp_depth disp_num num_indent indent_mode indent_char rest
            (count + 1) c.depth typestr
      else
        print_loop disp_depth disp_num num_indent indent_mode indent_char rest
          (count + 1) c.depth typestr
    else if c.depth ≤ disp_depth then
      print_loop disp_depth disp_num num_indent indent_mode indent_char rest
        (if c.depth - depth_printed = 1 then 0 else count) depth_printed typestr
    else []

/-- The header block print_childs writes before the root row. -/
def print_header (d : DirInfo) : List Line :=
  [ .text "", .text "", .labelled "root: " d.path, .text "",
    .text ("max_depth: " ++ toString d.max_depth),
    .text ("num_childs_recursive: " ++ toString d.num_childs_recursive),
    .text ("(num_childs_dir, num_child_file, num_child_other): " ++ "("
      ++ toString d.num_childs_dir_recursive ++ ", "
      ++ toString d.num_childs_file_recursive ++ ", "
      ++ toString d.num_childs_other_recursive ++ ") "),
    .text "" ]

/-- The method `DirInfo::print_childs(os, disp_depth, disp_num, num_indent,
indent_mode, indent_char, eliminator)`: the lines written to `os`. -/
def print_childs (d : DirInfo) (disp_depth disp_num : Int) (num_indent : Nat)
    (indent_mode : String) (indent_char : Char) : List Line :=
  let typestr := allocate_typestr d.type ((num_indent : Int) * 0) indent_char
  print_header d ++ [Line.row d.timestamp typestr d.size d.path]
    ++ print_loop disp_depth disp_num num_indent indent_mode indent_char d.childs 0 (-1) typestr

/-! ## Definitions used to state the properties -/

/-- The characters of the components of a path: the sequence `path_lt` compares. -/
def path_key (p : Path) : List (List Char) := p.map String.toList

/-- The sort key of a record: depth, kind priority, modification instant, path. -/
def sort_key (c : ChildInfo) : Int ×ₗ Int ×ₗ Int ×ₗ List (List Char) :=
  toLex (c.depth, toLex (type_priority c.type, toLex (c.sctp, path_key c.path)))

/-- The kind priority as the spec words it, File = 0, Directory = 1, Other = 2; written
from the spec, not from `DirInfo::type_priority`. -/
def spec_kind_priority : Kind → Nat
  | .File => 0
  | .Directory => 1
  | .Other => 2

/-- The order of the spec on records: lexicographic on depth, kind priority (File = 0,
Directory = 1, Other = 2), modification instant, path. -/
def key_le (a b : ChildInfo) : Prop :=
  a.depth < b.depth ∨ (a.depth = b.depth ∧
    (spec_kind_priority a.type < spec_kind_priority b.type ∨
      (spec_kind_priority a.type = spec_kind_priority b.type ∧
        (a.sctp < b.sctp ∨ (a.sctp = b.sctp ∧
          (path_lt a.path b.path = true ∨ a.path = b.path))))))

/-- The records the flat scan builds, in the order of enumeration, in a filesystem
where every status query succeeds and no path holds a symbolic link. -/
def enumerated_records (tz : Int → Option String) (p : Path) (e : Entry) : List ChildInfo :=
  (recursive_directory_iterator p e).map (fun it => ChildInfo.init tz p it.2.1 it.2.2)

/-- The records of the enumerated entries, in the order of enumeration. -/
def enumerated_records_at (tz : Int → Option String) (fs : Access) (p : Path) (e : Entry) :
    List ChildInfo :=
  (recursive_directory_iterator p e).map (fun it => ChildInfo.record_at tz fs p it.2.1 it.2.2)

/-- The bytes of the regular files among the enumerated entries whose size can be
read. -/
def readable_bytes (l : List (Nat × Path × Entry)) : Nat :=
  (l.map (fun it => if it.2.2.is_regular_file then it.2.2.file_size.getD 0 else 0)).sum

/-- The path of a report row, `none` for another line. -/
def Line.row_path : Line → Option Path
  | .row _ _ _ p => some p
  | _ => none

mutual
/-- The sum of the sizes of the regular files below `e` that can be reached without
entering a directory that cannot be listed and whose size can be read. -/
def subtree_file_bytes : Entry → Nat
  | .dir _ true cs => children_file_bytes cs
  | _ => 0
/-- The sum of the readable sizes of the regular files among the entries `cs` and
below them. -/
def children_file_bytes : List (String × Entry) → Nat
  | [] => 0
  | (_, e) :: rest =>
    (if e.is_regular_file then e.file_size.getD 0 else 0) + subtree_file_bytes e
      + children_file_bytes rest
end

/-- The sort key of a node among its siblings: kind priority, path. -/
def nested_sort_key (d : DirInfo) : Int ×ₗ List (List Char) :=
  toLex (type_priority d.type, path_key d.path)

/-- The order of the spec on the children of a node: lexicographic on kind priority
(File = 0, Directory = 1, Other = 2) and path. -/
def nested_key_le (a b : DirInfo) : Prop :=
  spec_kind_priority a.type < spec_kind_priority b.type ∨
    (spec_kind_priority a.type = spec_kind_priority b.type ∧
      (path_lt a.path b.path = true ∨ a.path = b.path))

mutual
/-- The property `P` holds at the node `d` and at every node below it. -/
def every_node (P : DirInfo → Prop) : DirInfo → Prop
  | .mk type sctp timestamp size path max_depth n nd nf no c cd cf co childs_nested childs =>
    P (.mk type sctp timestamp size path max_depth n nd nf no c cd cf co childs_nested childs)
      ∧ every_node_list P childs_nested
/-- The property `P` holds at every node of the trees `ds`. -/
def every_node_list (P : DirInfo → Prop) : List DirInfo → Prop
  | [] => True
  | d :: ds => every_node P d ∧ every_node_list P ds
end

/-- What the claim states of one node: its children are in the order of the spec, the
number of children is the sum of the three immediate counts, and it is the length of
the child collection. -/
def node_sorted_counted (d : DirInfo) : Prop :=
  d.childs_nested.Pairwise nested_key_le
    ∧ d.num_child = d.num_child_dir + d.num_child_file + d.num_child_other
    ∧ d.childs_nested.length = d.num_child

/-- The part of the claim that holds of every node: its children are in the order of
the spec, the number of children is the sum of the three immediate counts, and the
child collection is not longer than that number. -/
def node_sorted_bounded (d : DirInfo) : Prop :=
  d.childs_nested.Pairwise nested_key_le
    ∧ d.num_child = d.num_child_dir + d.num_child_file + d.num_child_other
    ∧ d.childs_nested.length ≤ d.num_child

mutual
/-- The size and modification time queries succeed for the entry and for every entry
below it. -/
def all_readable : Entry → Bool
  | .file size mt => size.isSome && mt.isSome
  | .dir mt _ cs => mt.isSome && all_readable_list cs
  | .other mt => mt.isSome
/-- The size and modification time queries succeed for the entries `cs` and for every
entry below them. -/
def all_readable_list : List (String × Entry) → Bool
  | [] => true
  | (_, e) :: rest => all_readable e && all_readable_list rest
end

/-- The records for which the loop of print_childs writes a row: the loop with the
output reduced to the record printed. -/
def printed_records (disp_depth disp_num : Int) : List ChildInfo → Int → Int → List ChildInfo
  | [], _, _ => []
  | c :: rest, count, depth_printed =>
    if count < disp_num then
      if c.depth ≤ disp_depth then
        c :: printed_records disp_depth disp_num rest (count + 1) c.depth
      else printed_records disp_depth disp_num rest (count + 1) c.depth
    else if c.depth ≤ disp_depth then
      printed_records disp_depth disp_num rest
        (if c.depth - depth_printed = 1 then 0 else count) depth_printed
    else []

/-- The kind `is_directory()` and `is_regular_file()` give an entry. -/
def Entry.kind : Entry → Kind
  | .dir _ _ _ => .Directory
  | .file _ _ => .File
  | .other _ => .Other

/-- The entry of the name `n` in a directory listing. -/
def lookup_entry (n : String) : List (String × Entry) → Option Entry
  | [] => none
  | (m, e) :: rest => if m = n then some e else lookup_entry n rest

/-- The entry found from `e` along the relative path `s`, name by name, going only
through directories that can be listed: the entries below `e` that can be reached
without passing through a directory whose listing is denied. -/
def resolve : Entry → List String → Option Entry
  | e, [] => some e
  | .dir _ true cs, n :: s =>
    match lookup_entry n cs with
    | some e' => resolve e' s
    | none => none
  | _, _ :: _ => none

mutual
/-- The names of the entries of every directory at or below `e` are pairwise distinct,
as in a filesystem. -/
def distinct_names : Entry → Bool
  | .dir _ _ cs => decide (cs.map Prod.fst).Nodup && distinct_names_list cs
  | _ => true
/-- The names are pairwise distinct in every directory at or below the entries `cs`. -/
def distinct_names_list : List (String × Entry) → Bool
  | [] => true
  | (_, e) :: rest => distinct_names e && distinct_names_list rest
end

/-! ## The scenario of the spec -/

/-- The clock of the scenarios: every instant formats to the same time string. -/
def scenario_tz : Int → Option String := fun _ => some "2024-01-02 03:04:05"

/-- The entries of the scenario root: `a.txt` (10 bytes) and `sub/`, which holds
`b.txt` (20 bytes). -/
def scenario_children : List (String × Entry) :=
  [("a.txt", .file (some 10) (some 100)),
   ("sub", .dir (some 200) true [("b.txt", .file (some 20) (some 300))])]

/-- The scenario tree of the spec. -/
def scenario_root : Entry := .dir (some 50) true scenario_children

/-- The path the scenario tree is scanned at. -/
def scenario_path : Path := ["root"]

/-- The record of `a.txt` in the scenario. -/
def record_a : ChildInfo :=
  { type := .File, depth := 0, sctp := 100, size := 10, path := ["root", "a.txt"],
    root := ["root"] }

/-- The record of `sub` in the scenario. -/
def record_sub : ChildInfo :=
  { type := .Directory, depth := 0, sctp := 200, path := ["root", "sub"], root := ["root"] }

/-- The record of `sub/b.txt` in the scenario. -/
def record_b : ChildInfo :=
  { type := .File, depth := 1, sctp := 300, size := 20, path := ["root", "sub", "b.txt"],
    root := ["root"] }

/-- A directory without entries, as the scenario of an empty directory. -/
def empty_dir : Entry := .dir (some 50) true []

/-- The scenario of a modification time that cannot be read: a directory holding one
regular file of 10 bytes whose `last_write_time` query fails. -/
def untimed_children : List (String × Entry) := [("x.bin", .file (some 10) none)]

/-- The directory of the scenario of a failing modification-time query. -/
def untimed_root : Entry := .dir (some 50) true untimed_children

/-- The entries of a directory in which the order of the kinds runs against the
instants and against the paths: a socket `a.sock` (instant 10), a directory `m/`
(instant 20) holding `b.txt` (instant 5), and a regular file `z.txt` (instant 30). -/
def mixed_children : List (String × Entry) :=
  [("a.sock", .other (some 10)),
   ("m", .dir (some 20) true [("b.txt", .file (some 20) (some 5))]),
   ("z.txt", .file (some 10) (some 30))]

/-- The directory of the scenario of mixed kinds. -/
def mixed_root : Entry := .dir (some 50) true mixed_children

/-- The path of the scenario of a symbolic link: the directory `/home/u/r`. -/
def link_path : Path := ["/", "home", "u", "r"]

/-- The directory of the scenario of a symbolic link: it holds the one entry `link`, a
symbolic link to the regular file `/home/u/data/a/b.txt` (7 bytes); the status queries
follow the link and find the file. -/
def link_root : Entry := .dir (some 50) true [("link", .file (some 7) (some 400))]

/-- The filesystem of the scenario of a symbolic link: every status query succeeds, and
`/home/u/r/link` resolves to `/home/u/data/a/b.txt`. -/
def link_access : Access :=
  { statable := fun _ => true
    canonical := fun q =>
      if q = ["/", "home", "u", "r", "link"] then ["/", "home", "u", "data", "a", "b.txt"]
      else q }

/-- The directory of the scenario of an entry whose status cannot be queried: `a.txt`
and a directory `d/` that can be listed but not searched, which holds the directory
`locked/`. -/
def unsearchable_root : Entry :=
  .dir (some 50) true
    [("a.txt", .file (some 10) (some 100)),
     ("d", .dir (some 60) true
        [("locked", .dir (some 70) false [("secret.txt", .file (some 5) (some 160))])])]

/-- The filesystem of that scenario: the status of `root/d/locked` cannot be queried,
no path holds a symbolic link. -/
def unsearchable_access : Access :=
  { statable := fun q => decide (q ≠ ["root", "d", "locked"])
    canonical := fun q => q }

/-- A node to refresh in the scenario: the root as a nested scan with a negative bound
leaves it, without children. -/
def scenario_node : DirInfo :=
  { type := .Directory, sctp := 50, timestamp := "", size := 30, path := scenario_path,
    max_depth := 2, num_childs_recursive := 3, num_childs_dir_recursive := 1,
    num_childs_file_recursive := 2, num_childs_other_recursive := 0,
    childs_nested := [] }

/-- The scenario root as the flat scan describes it to the renderer, with the three
sorted records. -/
def scenario_listing : DirInfo :=
  { type := .Directory, sctp := 50, timestamp := "", path := scenario_path, max_depth := 1,
    num_childs_recursive := 4, num_childs_dir_recursive := 2,
    num_childs_file_recursive := 2, num_childs_other_recursive := 0,
    childs_nested := [], childs := [record_a, record_sub, record_b] }

/-- The scenario of a directory that cannot be listed: the scenario tree with a further
directory `locked/`, whose listing is denied and which holds `secret.txt`. -/
def locked_children : List (String × Entry) :=
  [("a.txt", .file (some 10) (some 100)),
   ("locked", .dir (some 150) false [("secret.txt", .file (some 5) (some 160))]),
   ("sub", .dir (some 200) true [("b.txt", .file (some 20) (some 300))])]

/-- The root of the scenario of a directory that cannot be listed. -/
def locked_root : Entry := .dir (some 50) true locked_children

/-! ## Lemmas: the sort -/

theorem sort_insert_perm {α : Type} (lt : α → α → Bool) (x : α) (l : List α) :
    (sort_insert lt x l).Perm (x :: l) := by
  induction l with
  | nil => simp [sort_insert]
  | cons y ys ih =>
    simp only [sort_insert]
    split
    · exact (List.Perm.cons y ih).trans (List.Perm.swap x y ys)
    · exact List.Perm.refl _

theorem std_sort_perm {α : Type} (lt : α → α → Bool) (l : List α) :
    (std_sort lt l).Perm l := by
  induction l with
  | nil => simp [std_sort]
  | cons x xs ih =>
    simp only [std_sort]
    exact (sort_insert_perm lt x _).trans (List.Perm.cons x ih)

theorem sort_insert_sorted {α : Type} (lt : α → α → Bool)
    (hasymm : ∀ a b, lt a b = true → lt b a = false)
    (htrans : ∀ a b c, lt b a = false → lt c b = false → lt c a = false)
    (x : α) (l : List α) (hl : l.Pairwise (fun a b => lt b a = false)) :
    (sort_insert lt x l).Pairwise (fun a b => lt b a = false) := by
  induction l with
  | nil => simp [sort_insert]
  | cons y ys ih =>
    rw [List.pairwise_cons] at hl
    simp only [sort_insert]
    split
    · rename_i hyx
      rw [List.pairwise_cons]
      refine ⟨?_, ih hl.2⟩
      intro z hz
      rcases List.mem_cons.1 ((sort_insert_perm lt x ys).mem_iff.1 hz) with rfl | hz'
      · exact hasymm _ _ hyx
      · exact hl.1 z hz'
    · rename_i hyx
      have hyx' : lt y x = false := by simpa using hyx
      rw [List.pairwise_cons]
      refine ⟨?_, List.pairwise_cons.2 hl⟩
      intro z hz
      rcases List.mem_cons.1 hz with rfl | hz
      · exact hyx'
      · exact htrans _ _ _ hyx' (hl.1 z hz)

theorem std_sort_sorted {α : Type} (lt : α → α → Bool)
    (hasymm : ∀ a b, lt a b = true → lt b a = false)
    (htrans : ∀ a b c, lt b a = false → lt c b = false → lt c a = false)
    (l : List α) : (std_sort lt l).Pairwise (fun a b => lt b a = false) := by
  induction l with
  | nil => simp [std_sort]
  | cons x xs ih => exact sort_insert_sorted lt hasymm htrans x _ ih

/-! ## Lemmas: the comparator of `sort_childs` -/

theorem path_key_injective : Function.Injective path_key := by
  intro a b h
  unfold path_key at h
  exact List.map_injective_iff.2 (fun s t hst => String.ext hst) h

theorem path_lt_iff (a b : Path) : path_lt a b = true ↔ path_key a < path_key b := by
  simp [path_lt, path_key]

theorem sort_childs_cmp_iff (a b : ChildInfo) :
    sort_childs_cmp a b = true ↔ sort_key a < sort_key b := by
  simp only [sort_childs_cmp, sort_key, Prod.Lex.lt_iff, path_lt_iff]
  split_ifs with h1 h2 h3 <;> simp_all
  all_goals first | omega | exact path_lt_iff _ _

theorem sort_childs_cmp_false_iff (a b : ChildInfo) :
    sort_childs_cmp b a = false ↔ sort_key a ≤ sort_key b := by
  rw [← not_lt, ← sort_childs_cmp_iff]; simp

theorem sort_childs_cmp_asymm (a b : ChildInfo) (h : sort_childs_cmp a b = true) :
    sort_childs_cmp b a = false := by
  rw [sort_childs_cmp_false_iff]; exact le_of_lt ((sort_childs_cmp_iff a b).1 h)

theorem sort_childs_cmp_negtrans (a b c : ChildInfo) (h1 : sort_childs_cmp b a = false)
    (h2 : sort_childs_cmp c b = false) : sort_childs_cmp c a = false := by
  rw [sort_childs_cmp_false_iff] at *; exact le_trans h1 h2

theorem sort_key_eq_path {a b : ChildInfo} (h : sort_key a = sort_key b) : a.path = b.path := by
  simp only [sort_key] at h
  have h' := congrArg (fun k => (ofLex (ofLex (ofLex k).2).2).2) h
  exact path_key_injective h'

theorem type_priority_lt_iff (a b : Kind) :
    type_priority a < type_priority b ↔ spec_kind_priority a < spec_kind_priority b := by
  cases a <;> cases b <;> simp [type_priority, spec_kind_priority]

theorem type_priority_eq_iff (a b : Kind) :
    type_priority a = type_priority b ↔ spec_kind_priority a = spec_kind_priority b := by
  cases a <;> cases b <;> simp [type_priority, spec_kind_priority]

theorem key_le_iff (a b : ChildInfo) : key_le a b ↔ sort_key a ≤ sort_key b := by
  simp only [key_le, sort_key, Prod.Lex.le_iff, path_lt_iff, ofLex_toLex]
  simp only [le_iff_lt_or_eq, path_key_injective.eq_iff, type_priority_lt_iff,
    type_priority_eq_iff]

theorem sort_childs_no_inversion (l : List ChildInfo) :
    (sort_childs l).Pairwise (fun a b => sort_childs_cmp b a = false) :=
  std_sort_sorted sort_childs_cmp sort_childs_cmp_asymm sort_childs_cmp_negtrans l

theorem sort_childs_sorted (l : List ChildInfo) : (sort_childs l).Pairwise key_le := by
  refine (sort_childs_no_inversion l).imp ?_
  intro a b hab
  rw [key_le_iff]; exact (sort_childs_cmp_false_iff a b).1 hab

theorem sort_childs_perm (l : List ChildInfo) : (sort_childs l).Perm l :=
  std_sort_perm _ l

theorem sorted_perm_unique {s₁ s₂ : List ChildInfo} (hp : s₁.Perm s₂)
    (hnd : (s₁.map (fun c => c.path)).Nodup)
    (h₁ : s₁.Pairwise (fun a b => sort_childs_cmp b a = false))
    (h₂ : s₂.Pairwise (fun a b => sort_childs_cmp b a = false)) : s₁ = s₂ := by
  have hstrict : ∀ s : List ChildInfo, (s.map (fun c => c.path)).Nodup →
      s.Pairwise (fun a b => sort_childs_cmp b a = false) →
      s.Pairwise (fun a b => sort_key a < sort_key b) := by
    intro s hs h1
    have h2 : s.Pairwise (fun a b => a.path ≠ b.path) := List.pairwise_map.1 hs
    refine (h1.and h2).imp ?_
    intro a b hab
    have hle := (sort_childs_cmp_false_iff a b).1 hab.1
    exact lt_of_le_of_ne hle (fun h => hab.2 (sort_key_eq_path h))
  have hnd₂ : (s₂.map (fun c => c.path)).Nodup := ((hp.map _).nodup_iff).1 hnd
  haveI : IsAntisymm ChildInfo (fun a b => sort_key a < sort_key b) :=
    ⟨fun a b h1 h2 => absurd h1 (lt_asymm h2)⟩
  exact List.eq_of_perm_of_sorted hp (hstrict s₁ hnd h₁) (hstrict s₂ hnd₂ h₂)

/-! ## Lemmas: the recursive iterator -/

mutual
theorem descend_path (root : Path) : ∀ (e : Entry) (d : Nat) (pre : Path), pre.length = d →
    ∀ x ∈ descend d (root ++ pre) e, ∃ s, x.2.1 = root ++ s ∧ s.length = x.1 + 1
  | .dir _ true cs, d, pre, h, x, hx => by
    simp only [descend] at hx
    exact iterate_path root cs d pre h x hx
  | .dir _ false _, _, _, _, x, hx => by simp [descend] at hx
  | .file _ _, _, _, _, x, hx => by simp [descend] at hx
  | .other _, _, _, _, x, hx => by simp [descend] at hx
theorem iterate_path (root : Path) : ∀ (cs : List (String × Entry)) (d : Nat) (pre : Path),
    pre.length = d →
    ∀ x ∈ iterate d (root ++ pre) cs, ∃ s, x.2.1 = root ++ s ∧ s.length = x.1 + 1
  | [], _, _, _, x, hx => by simp [iterate] at hx
  | (n, e) :: rest, d, pre, h, x, hx => by
    simp only [iterate, List.mem_cons, List.mem_append] at hx
    rcases hx with rfl | hx | hx
    · exact ⟨pre ++ [n], by simp, by simp [h]⟩
    · exact descend_path root e (d + 1) (pre ++ [n]) (by simp [h]) x
        (by simpa [List.append_assoc] using hx)
    · exact iterate_path root rest d pre h x hx
end

theorem iterator_path (root : Path) (e : Entry) :
    ∀ x ∈ recursive_directory_iterator root e,
      ∃ s, x.2.1 = root ++ s ∧ s.length = x.1 + 1 := by
  intro x hx
  have := descend_path root e 0 [] rfl x (by simpa [recursive_directory_iterator] using hx)
  exact this

theorem lexically_relative_append (root s : Path) (hs : s ≠ []) :
    lexically_relative (root ++ s) root = s := by
  induction root with
  | nil =>
    cases s with
    | nil => exact absurd rfl hs
    | cons a s => simp [lexically_relative]
  | cons r root ih => simp [lexically_relative, ih]

theorem init_path (tz : Int → Option String) (r p : Path) (e : Entry) :
    (ChildInfo.init tz r p e).path = p := by
  unfold ChildInfo.init
  split_ifs <;> rfl

theorem init_depth (tz : Int → Option String) (r p : Path) (e : Entry) :
    (ChildInfo.init tz r p e).depth = -1 + ((lexically_relative p r).length : Int) := by
  unfold ChildInfo.init
  split_ifs <;> rfl

/-! ## Lemmas: the loop of the flat scan -/

theorem flat_fold_childs (tz : Int → Option String) (p : Path)
    (l : List (Nat × Path × Entry)) (s : FlatLoop) :
    (l.foldl (flat_step tz p) s).childs
      = s.childs ++ l.map (fun it => ChildInfo.init tz p it.2.1 it.2.2) := by
  induction l generalizing s with
  | nil => simp
  | cons x xs ih => simp [List.foldl_cons, ih, flat_step]

theorem flat_fold_counts (tz : Int → Option String) (p : Path)
    (l : List (Nat × Path × Entry)) (s : FlatLoop) :
    (l.foldl (flat_step tz p) s).num_childs_dir_recursive
      + (l.foldl (flat_step tz p) s).num_childs_file_recursive
      + (l.foldl (flat_step tz p) s).num_childs_other_recursive
      = s.num_childs_dir_recursive + s.num_childs_file_recursive
        + s.num_childs_other_recursive + l.length := by
  induction l generalizing s with
  | nil => simp
  | cons x xs ih =>
    rw [List.foldl_cons, ih]
    simp only [flat_step, List.length_cons]
    split_ifs <;> omega

theorem flat_fold_max_ge (tz : Int → Option String) (p : Path)
    (l : List (Nat × Path × Entry)) (s : FlatLoop) :
    s.max_depth ≤ (l.foldl (flat_step tz p) s).max_depth
      ∧ ∀ it ∈ l, (it.1 : Int) ≤ (l.foldl (flat_step tz p) s).max_depth := by
  induction l generalizing s with
  | nil => simp
  | cons x xs ih =>
    rw [List.foldl_cons]
    have h := ih (flat_step tz p s x)
    have hs : s.max_depth ≤ (flat_step tz p s x).max_depth
        ∧ (x.1 : Int) ≤ (flat_step tz p s x).max_depth := by
      simp only [flat_step]; split_ifs <;> omega
    refine ⟨le_trans hs.1 h.1, ?_⟩
    intro it hit
    rcases List.mem_cons.1 hit with rfl | hit
    · exact le_trans hs.2 h.1
    · exact h.2 it hit

theorem flat_fold_max_attained (tz : Int → Option String) (p : Path)
    (l : List (Nat × Path × Entry)) (s : FlatLoop) :
    (l.foldl (flat_step tz p) s).max_depth = s.max_depth
      ∨ ∃ it ∈ l, (it.1 : Int) = (l.foldl (flat_step tz p) s).max_depth := by
  induction l generalizing s with
  | nil => exact Or.inl rfl
  | cons x xs ih =>
    rw [List.foldl_cons]
    rcases ih (flat_step tz p s x) with h | ⟨it, hit, h⟩
    · rw [h]
      simp only [flat_step]
      split_ifs
      · exact Or.inr ⟨x, List.mem_cons_self _ _, rfl⟩
      · exact Or.inl rfl
    · exact Or.inr ⟨it, List.mem_cons_of_mem _ hit, h⟩

/-! ## Lemmas: what the flat constructor returns on a directory -/

theorem flat_dir_fields (tz : Int → Option String) (p : Path) (mt : Option Int)
    (listable : Bool) (cs : List (String × Entry)) (r : DirInfo)
    (h : DirInfo.flat tz p (some (.dir mt listable cs)) = .ok r) :
    r.type = .Directory ∧ r.size = 0 ∧ r.path = p
      ∧ r.max_depth = (flat_loop tz p (.dir mt listable cs)).max_depth
      ∧ r.num_childs_dir_recursive
          = (flat_loop tz p (.dir mt listable cs)).num_childs_dir_recursive
      ∧ r.num_childs_file_recursive
          = (flat_loop tz p (.dir mt listable cs)).num_childs_file_recursive
      ∧ r.num_childs_other_recursive
          = (flat_loop tz p (.dir mt listable cs)).num_childs_other_recursive
      ∧ r.num_childs_recursive = r.num_childs_dir_recursive + r.num_childs_file_recursive
          + r.num_childs_other_recursive
      ∧ r.childs = sort_childs (flat_loop tz p (.dir mt listable cs)).childs
      ∧ r.childs_nested = [] := by
  simp only [DirInfo.flat, Entry.is_directory, if_true] at h
  cases hts : get_last_write_time tz (.dir mt listable cs) with
  | error x => rw [hts] at h; cases h
  | ok ts =>
    rw [hts] at h
    simp only [Except.ok.injEq] at h
    subst h
    simp

theorem get_last_write_time_ok (tz : Int → Option String) (e : Entry) (t : Int)
    (h : e.last_write_time = some t) : ∃ ts, get_last_write_time tz e = .ok (ts, t) := by
  unfold get_last_write_time
  rw [h]
  cases htz : tz t with
  | none => exact ⟨"N/A", by simp [htz]⟩
  | some s => exact ⟨strftime_buf s, by simp [htz]⟩

theorem flat_dir_returns (tz : Int → Option String) (p : Path) (t : Int)
    (listable : Bool) (cs : List (String × Entry)) :
    ∃ r, DirInfo.flat tz p (some (.dir (some t) listable cs)) = .ok r := by
  obtain ⟨ts, hts⟩ := get_last_write_time_ok tz (.dir (some t) listable cs) t rfl
  simp only [DirInfo.flat, Entry.is_directory, if_true, hts]
  exact ⟨_, rfl⟩

theorem flat_loop_childs (tz : Int → Option String) (p : Path) (e : Entry) :
    (flat_loop tz p e).childs = enumerated_records tz p e := by
  simp [flat_loop, flat_fold_childs, enumerated_records]

theorem flat_loop_counts (tz : Int → Option String) (p : Path) (e : Entry) :
    (flat_loop tz p e).num_childs_dir_recursive + (flat_loop tz p e).num_childs_file_recursive
      + (flat_loop tz p e).num_childs_other_recursive
      = (recursive_directory_iterator p e).length + 1 := by
  have hc := flat_fold_counts tz p (recursive_directory_iterator p e)
    { max_depth := 0, childs := [], num_childs_dir_recursive := 1,
      num_childs_file_recursive := 0, num_childs_other_recursive := 0 }
  simp only [] at hc
  simp only [flat_loop]
  omega

theorem record_of_iterator (tz : Int → Option String) (p : Path) (e : Entry)
    (it : Nat × Path × Entry) (hit : it ∈ recursive_directory_iterator p e) :
    (ChildInfo.init tz p it.2.1 it.2.2).depth = (it.1 : Int)
      ∧ ∃ rel, (ChildInfo.init tz p it.2.1 it.2.2).path = p ++ rel
          ∧ lexically_relative (ChildInfo.init tz p it.2.1 it.2.2).path p = rel
          ∧ (ChildInfo.init tz p it.2.1 it.2.2).depth = (rel.length : Int) - 1 := by
  obtain ⟨s, hs, hlen⟩ := iterator_path p e it hit
  have hne : s ≠ [] := by
    intro h; rw [h] at hlen; simp at hlen
  have hrel : lexically_relative it.2.1 p = s := by
    rw [hs]; exact lexically_relative_append p s hne
  rw [init_depth, init_path, hrel, hlen]
  refine ⟨by push_cast; omega, s, hs, rfl, by push_cast; omega⟩

theorem mem_enumerated_records (tz : Int → Option String) (p : Path) (e : Entry)
    (c : ChildInfo) :
    c ∈ enumerated_records tz p e
      ↔ ∃ it ∈ recursive_directory_iterator p e, ChildInfo.init tz p it.2.1 it.2.2 = c := by
  unfold enumerated_records
  exact List.mem_map

/-! ## Lemmas: the flat scan over an `Access` -/

theorem record_at_path (tz : Int → Option String) (fs : Access) (r p : Path) (e : Entry) :
    (ChildInfo.record_at tz fs r p e).path = p := by
  unfold ChildInfo.record_at
  split_ifs <;> rfl

theorem record_at_depth (tz : Int → Option String) (fs : Access) (r p : Path) (e : Entry) :
    (ChildInfo.record_at tz fs r p e).depth = -1 + ((relative fs p r).length : Int) := by
  unfold ChildInfo.record_at
  split_ifs <;> rfl

theorem record_at_type (tz : Int → Option String) (fs : Access) (r p : Path) (e : Entry) :
    (ChildInfo.record_at tz fs r p e).type = e.kind := by
  cases e <;>
    simp [ChildInfo.record_at, Entry.is_directory, Entry.is_regular_file, Entry.kind]

theorem relative_splice (fs : Access) (p s : Path) (hs : s ≠ [])
    (h : fs.canonical (p ++ s) = fs.canonical p ++ s) : relative fs (p ++ s) p = s := by
  unfold relative
  rw [h]
  exact lexically_relative_append _ s hs

theorem record_at_splice (tz : Int → Option String) (fs : Access) (p s : Path) (e : Entry)
    (hs : s ≠ []) (h : fs.canonical (p ++ s) = fs.canonical p ++ s) :
    ChildInfo.record_at tz fs p (p ++ s) e = ChildInfo.init tz p (p ++ s) e := by
  unfold ChildInfo.record_at ChildInfo.init
  rw [relative_splice fs p s hs h, lexically_relative_append p s hs]

theorem init_at_ideal (tz : Int → Option String) (r p : Path) (e : Entry) :
    ChildInfo.init_at tz Access.ideal r p e = .ok (ChildInfo.init tz r p e) :=
  rfl

theorem init_at_ok (tz : Int → Option String) (fs : Access) (r p : Path) (e : Entry)
    (c : ChildInfo) (h : ChildInfo.init_at tz fs r p e = .ok c) :
    fs.statable p = true ∧ c = ChildInfo.record_at tz fs r p e := by
  unfold ChildInfo.init_at at h
  split_ifs at h with hs
  · simp only [Except.ok.injEq] at h
    exact ⟨hs, h.symm⟩

theorem flat_loop_at_ok (tz : Int → Option String) (fs : Access) (p : Path)
    (l : List (Nat × Path × Entry)) :
    ∀ s s₀ s' : FlatLoop, flat_loop_at tz fs p l s = .ok s' →
      s₀.max_depth = s.max_depth →
      s₀.num_childs_dir_recursive = s.num_childs_dir_recursive →
      s₀.num_childs_file_recursive = s.num_childs_file_recursive →
      s₀.num_childs_other_recursive = s.num_childs_other_recursive →
      s'.childs = s.childs ++ l.map (fun it => ChildInfo.record_at tz fs p it.2.1 it.2.2)
        ∧ s'.max_depth = (l.foldl (flat_step tz p) s₀).max_depth
        ∧ s'.num_childs_dir_recursive = (l.foldl (flat_step tz p) s₀).num_childs_dir_recursive
        ∧ s'.num_childs_file_recursive
            = (l.foldl (flat_step tz p) s₀).num_childs_file_recursive
        ∧ s'.num_childs_other_recursive
            = (l.foldl (flat_step tz p) s₀).num_childs_other_recursive
        ∧ ∀ it ∈ l, fs.statable it.2.1 = true := by
  induction l with
  | nil =>
    intro s s₀ s' h h1 h2 h3 h4
    simp only [flat_loop_at, Except.ok.injEq] at h
    subst h
    simp [h1, h2, h3, h4]
  | cons x rest ih =>
    intro s s₀ s' h h1 h2 h3 h4
    simp only [flat_loop_at] at h
    cases hc : ChildInfo.init_at tz fs p x.2.1 x.2.2 with
    | error y => rw [hc] at h; cases h
    | ok c =>
      rw [hc] at h
      obtain ⟨hst, rfl⟩ := init_at_ok tz fs p x.2.1 x.2.2 c hc
      obtain ⟨k1, k2, k3, k4, k5, k6⟩ := ih _ (flat_step tz p s₀ x) s' h
        (by simp only [flat_step, h1]) (by simp only [flat_step, h2])
        (by simp only [flat_step, h3]) (by simp only [flat_step, h4])
      refine ⟨?_, k2, k3, k4, k5, ?_⟩
      · rw [k1]; simp
      · intro it hit
        rcases List.mem_cons.1 hit with rfl | hit
        · exact hst
        · exact k6 it hit

theorem flat_loop_at_returns (tz : Int → Option String) (fs : Access) (p : Path)
    (l : List (Nat × Path × Entry)) (hst : ∀ it ∈ l, fs.statable it.2.1 = true) :
    ∀ s : FlatLoop, ∃ s', flat_loop_at tz fs p l s = .ok s' := by
  induction l with
  | nil => intro s; exact ⟨s, rfl⟩
  | cons x rest ih =>
    intro s
    have hx : fs.statable x.2.1 = true := hst x (List.mem_cons_self _ _)
    simp only [flat_loop_at, ChildInfo.init_at, hx, if_true]
    exact ih (fun it hit => hst it (List.mem_cons_of_mem _ hit)) _

theorem flat_at_dir_fields (tz : Int → Option String) (fs : Access) (p : Path)
    (mt : Option Int) (listable : Bool) (cs : List (String × Entry)) (r : DirInfo)
    (h : DirInfo.flat_at tz fs p (some (.dir mt listable cs)) = .ok r) :
    r.type = .Directory ∧ r.size = 0 ∧ r.path = p
      ∧ r.max_depth = (flat_loop tz p (.dir mt listable cs)).max_depth
      ∧ r.num_childs_dir_recursive
          = (flat_loop tz p (.dir mt listable cs)).num_childs_dir_recursive
      ∧ r.num_childs_file_recursive
          = (flat_loop tz p (.dir mt listable cs)).num_childs_file_recursive
      ∧ r.num_childs_other_recursive
          = (flat_loop tz p (.dir mt listable cs)).num_childs_other_recursive
      ∧ r.num_childs_recursive = r.num_childs_dir_recursive + r.num_childs_file_recursive
          + r.num_childs_other_recursive
      ∧ r.childs = sort_childs (enumerated_records_at tz fs p (.dir mt listable cs))
      ∧ r.childs_nested = []
      ∧ ∀ it ∈ recursive_directory_iterator p (.dir mt listable cs),
          fs.statable it.2.1 = true := by
  simp only [DirInfo.flat_at, Entry.is_directory, if_true] at h
  cases hl : flat_loop_at tz fs p (recursive_directory_iterator p (.dir mt listable cs))
      { max_depth := 0, childs := [], num_childs_dir_recursive := 1,
        num_childs_file_recursive := 0, num_childs_other_recursive := 0 } with
  | error x => rw [hl] at h; cases h
  | ok s =>
    rw [hl] at h
    obtain ⟨k1, k2, k3, k4, k5, k6⟩ := flat_loop_at_ok tz fs p _ _ _ s hl rfl rfl rfl rfl
    cases hts : get_last_write_time tz (.dir mt listable cs) with
    | error x => rw [hts] at h; cases h
    | ok ts =>
      rw [hts] at h
      simp only [Except.ok.injEq] at h
      subst h
      simp only [List.nil_append] at k1
      exact ⟨rfl, rfl, rfl, k2, k3, k4, k5, rfl, congrArg sort_childs k1, rfl, k6⟩

theorem flat_at_dir_returns (tz : Int → Option String) (fs : Access) (p : Path) (t : Int)
    (listable : Bool) (cs : List (String × Entry))
    (hst : ∀ it ∈ recursive_directory_iterator p (.dir (some t) listable cs),
      fs.statable it.2.1 = true) :
    ∃ r, DirInfo.flat_at tz fs p (some (.dir (some t) listable cs)) = .ok r := by
  obtain ⟨ts, hts⟩ := get_last_write_time_ok tz (.dir (some t) listable cs) t rfl
  obtain ⟨s, hs⟩ := flat_loop_at_returns tz fs p _ hst
    { max_depth := 0, childs := [], num_childs_dir_recursive := 1,
      num_childs_file_recursive := 0, num_childs_other_recursive := 0 }
  simp only [DirInfo.flat_at, Entry.is_directory, if_true, hs, hts]
  exact ⟨_, rfl⟩

theorem flat_loop_at_ideal (tz : Int → Option String) (p : Path)
    (l : List (Nat × Path × Entry)) :
    ∀ s : FlatLoop, flat_loop_at tz Access.ideal p l s = .ok (l.foldl (flat_step tz p) s) := by
  induction l with
  | nil => intro s; rfl
  | cons x rest ih =>
    intro s
    simp only [flat_loop_at, ChildInfo.init_at, Access.ideal, if_true, List.foldl_cons]
    exact ih _

/-- The flat scan of `DirInfo.flat` is the flat scan over the filesystem in which every
status query succeeds and no path holds a symbolic link. -/
theorem flat_at_ideal (tz : Int → Option String) (p : Path) (st : Option Entry) :
    DirInfo.flat_at tz Access.ideal p st = DirInfo.flat tz p st := by
  cases st with
  | none => rfl
  | some e =>
    simp only [DirInfo.flat_at, DirInfo.flat, flat_loop, flat_loop_at_ideal]

theorem enumerated_records_at_splice (tz : Int → Option String) (fs : Access) (p : Path)
    (e : Entry) (hcanon : ∀ s, fs.canonical (p ++ s) = fs.canonical p ++ s) :
    enumerated_records_at tz fs p e = enumerated_records tz p e := by
  unfold enumerated_records_at enumerated_records
  apply List.map_congr_left
  intro it hit
  obtain ⟨s, hs, hlen⟩ := iterator_path p e it hit
  have hne : s ≠ [] := by
    intro h; rw [h] at hlen; simp at hlen
  rw [hs]
  exact record_at_splice tz fs p s it.2.2 hne (hcanon s)

/-- C1 (the code departs from the claim).  On every directory the flat scan counts the
root itself as a directory: the three recursive counts sum to `num_childs_recursive`,
which is the number of records plus one.  On the scenario tree the counts are
(dirs = 2, files = 2, others = 0) with total 4, for 3 records. -/
theorem flat_counts_include_root :
    (∀ (tz : Int → Option String) (p : Path) (t : Int) (listable : Bool)
        (cs : List (String × Entry)),
      ∃ r, DirInfo.flat tz p (some (.dir (some t) listable cs)) = .ok r
        ∧ r.num_childs_dir_recursive + r.num_childs_file_recursive
            + r.num_childs_other_recursive = r.num_childs_recursive
        ∧ r.num_childs_recursive = r.childs.length + 1)
    ∧ ∃ r, DirInfo.flat scenario_tz scenario_path (some scenario_root) = .ok r
        ∧ r.num_childs_dir_recursive = 2 ∧ r.num_childs_file_recursive = 2
        ∧ r.num_childs_other_recursive = 0 ∧ r.num_childs_recursive = 4
        ∧ r.childs.length = 3 := by
  constructor
  · intro tz p t listable cs
    obtain ⟨r, hr⟩ := flat_dir_returns tz p t listable cs
    obtain ⟨-, -, -, -, hd, hf, ho, hsum, hch, -⟩ := flat_dir_fields tz p _ _ _ r hr
    refine ⟨r, hr, hsum.symm, ?_⟩
    have hlen : r.childs.length
        = (recursive_directory_iterator p (.dir (some t) listable cs)).length := by
      rw [hch, (sort_childs_perm _).length_eq, flat_loop_childs, enumerated_records,
        List.length_map]
    have hc := flat_loop_counts tz p (.dir (some t) listable cs)
    rw [hsum, hd, hf, ho, hlen]
    omega
  · obtain ⟨r, hr⟩ := flat_dir_returns scenario_tz scenario_path 50 true scenario_children
    obtain ⟨-, -, -, -, hd, hf, ho, hsum, hch, -⟩ := flat_dir_fields _ _ _ _ _ r hr
    refine ⟨r, hr, ?_, ?_, ?_, ?_, ?_⟩
    · rw [hd]; decide
    · rw [hf]; decide
    · rw [ho]; decide
    · rw [hsum, hd, hf, ho]; decide
    · rw [hch]; decide

/-- C2 (the code departs from the claim).  The flat scan never assigns `size` on a
directory: the root's size is 0 for every directory, and 0 on the scenario tree, whose
files hold 30 bytes. -/
theorem flat_root_size_zero :
    (∀ (tz : Int → Option String) (p : Path) (t : Int) (listable : Bool)
        (cs : List (String × Entry)),
      ∃ r, DirInfo.flat tz p (some (.dir (some t) listable cs)) = .ok r ∧ r.size = 0)
    ∧ readable_bytes (recursive_directory_iterator scenario_path scenario_root) = 30
    ∧ ∃ r, DirInfo.flat scenario_tz scenario_path (some scenario_root) = .ok r
        ∧ r.size = 0 := by
  refine ⟨?_, by decide, ?_⟩
  · intro tz p t listable cs
    obtain ⟨r, hr⟩ := flat_dir_returns tz p t listable cs
    exact ⟨r, hr, (flat_dir_fields tz p _ _ _ r hr).2.1⟩
  · obtain ⟨r, hr⟩ := flat_dir_returns scenario_tz scenario_path 50 true scenario_children
    exact ⟨r, hr, (flat_dir_fields _ _ _ _ _ r hr).2.1⟩

/-- C3.  For every directory root and every filesystem, the `childs` sequence of a
result of the flat scan is a permutation of the records of the enumerated entries and
is non-decreasing under the key of the spec (depth, kind priority File = 0 <
Directory = 1 < Other = 2, modification instant, path).  The scan returns a result
whenever the status of every enumerated entry can be queried and the root's own
modification time can be read. -/
theorem flat_childs_sorted_perm (tz : Int → Option String) (fs : Access) (p : Path)
    (mt : Option Int) (listable : Bool) (cs : List (String × Entry)) :
    (∀ r, DirInfo.flat_at tz fs p (some (.dir mt listable cs)) = .ok r →
      r.childs.Perm (enumerated_records_at tz fs p (.dir mt listable cs))
        ∧ r.childs.Pairwise key_le)
    ∧ ((∀ it ∈ recursive_directory_iterator p (.dir mt listable cs),
          fs.statable it.2.1 = true) →
        ∀ t, mt = some t →
          ∃ r, DirInfo.flat_at tz fs p (some (.dir mt listable cs)) = .ok r) := by
  constructor
  · intro r hr
    obtain ⟨-, -, -, -, -, -, -, -, hch, -⟩ := flat_at_dir_fields tz fs p _ _ _ r hr
    rw [hch]
    exact ⟨sort_childs_perm _, sort_childs_sorted _⟩
  · intro hst t ht
    subst ht
    exact flat_at_dir_returns tz fs p t listable cs hst

/-- Witness of C3.  On the directory of mixed kinds the scan returns and the sorted
sequence is z.txt (File, instant 30), m (Directory, instant 20), a.sock (Other,
instant 10), then m/b.txt (depth 1, instant 5): within a depth the kind decides before
the instant and the path, which both run the other way here.  On the scenario tree of
the spec the sequence is a.txt, sub, b.txt. -/
theorem flat_childs_sorted_perm_witness :
    (∃ r, DirInfo.flat_at scenario_tz Access.ideal scenario_path (some mixed_root) = .ok r
      ∧ r.childs.Perm (enumerated_records_at scenario_tz Access.ideal scenario_path mixed_root)
      ∧ r.childs.Pairwise key_le
      ∧ r.childs.map (fun c => (c.path, c.depth, c.type, c.sctp))
          = [(["root", "z.txt"], 0, Kind.File, 30), (["root", "m"], 0, Kind.Directory, 20),
             (["root", "a.sock"], 0, Kind.Other, 10),
             (["root", "m", "b.txt"], 1, Kind.File, 5)])
    ∧ ∃ r, DirInfo.flat_at scenario_tz Access.ideal scenario_path (some scenario_root) = .ok r
      ∧ r.childs.Perm
          (enumerated_records_at scenario_tz Access.ideal scenario_path scenario_root)
      ∧ r.childs.Pairwise key_le
      ∧ r.childs.map (fun c => (c.path, c.depth, c.type))
          = [(["root", "a.txt"], 0, Kind.File), (["root", "sub"], 0, Kind.Directory),
             (["root", "sub", "b.txt"], 1, Kind.File)] := by
  constructor
  · obtain ⟨r, hr⟩ :=
      (flat_childs_sorted_perm scenario_tz Access.ideal scenario_path (some 50) true
        mixed_children).2 (fun _ _ => rfl) 50 rfl
    have h :=
      (flat_childs_sorted_perm scenario_tz Access.ideal scenario_path (some 50) true
        mixed_children).1 r hr
    refine ⟨r, hr, h.1, h.2, ?_⟩
    rw [(flat_at_dir_fields _ _ _ _ _ _ r hr).2.2.2.2.2.2.2.2.1]
    decide
  · obtain ⟨r, hr⟩ :=
      (flat_childs_sorted_perm scenario_tz Access.ideal scenario_path (some 50) true
        scenario_children).2 (fun _ _ => rfl) 50 rfl
    have h :=
      (flat_childs_sorted_perm scenario_tz Access.ideal scenario_path (some 50) true
        scenario_children).1 r hr
    refine ⟨r, hr, h.1, h.2, ?_⟩
    rw [(flat_at_dir_fields _ _ _ _ _ _ r hr).2.2.2.2.2.2.2.2.1]
    decide

/-- C4.  The comparator of `sort_childs` is irreflexive and transitive, and of two
records with different paths exactly one is less than the other. -/
theorem sort_childs_cmp_strict_total :
    (∀ a : ChildInfo, sort_childs_cmp a a = false)
    ∧ (∀ a b : ChildInfo, a.path ≠ b.path →
        (sort_childs_cmp a b = true ∨ sort_childs_cmp b a = true)
          ∧ ¬ (sort_childs_cmp a b = true ∧ sort_childs_cmp b a = true))
    ∧ (∀ a b c : ChildInfo, sort_childs_cmp a b = true → sort_childs_cmp b c = true →
        sort_childs_cmp a c = true) := by
  refine ⟨?_, ?_, ?_⟩
  · intro a
    rw [sort_childs_cmp_false_iff]
  · intro a b hne
    constructor
    · rcases lt_trichotomy (sort_key a) (sort_key b) with h | h | h
      · exact Or.inl ((sort_childs_cmp_iff a b).2 h)
      · exact absurd (sort_key_eq_path h) hne
      · exact Or.inr ((sort_childs_cmp_iff b a).2 h)
    · rintro ⟨h1, h2⟩
      exact lt_asymm ((sort_childs_cmp_iff a b).1 h1) ((sort_childs_cmp_iff b a).1 h2)
  · intro a b c h1 h2
    exact (sort_childs_cmp_iff a c).2
      (lt_trans ((sort_childs_cmp_iff a b).1 h1) ((sort_childs_cmp_iff b c).1 h2))

/-- Witness of C4: the records of `a.txt`, `sub` and `b.txt` have different paths and
compare in one direction only; the comparator chains from `a.txt` over `sub` to
`b.txt`. -/
theorem sort_childs_cmp_strict_total_witness :
    record_a.path ≠ record_sub.path
      ∧ ((sort_childs_cmp record_a record_sub = true
            ∨ sort_childs_cmp record_sub record_a = true)
          ∧ ¬ (sort_childs_cmp record_a record_sub = true
            ∧ sort_childs_cmp record_sub record_a = true))
      ∧ sort_childs_cmp record_a record_b = true :=
  ⟨by decide, sort_childs_cmp_strict_total.2.1 record_a record_sub (by decide),
    sort_childs_cmp_strict_total.2.2 record_a record_sub record_b (by decide) (by decide)⟩

/-! ## Lemmas: constructors on a regular file and on a missing path -/

theorem flat_file_fields (tz : Int → Option String) (p : Path) (size : Option Nat)
    (mt : Option Int) (r : DirInfo)
    (h : DirInfo.flat tz p (some (.file size mt)) = .ok r) :
    r.type = .File ∧ r.max_depth = -1 ∧ r.childs = [] ∧ r.childs_nested = []
      ∧ r.num_childs_recursive = 0 ∧ r.num_childs_dir_recursive = 0
      ∧ r.num_childs_file_recursive = 0 ∧ r.num_childs_other_recursive = 0 := by
  simp only [DirInfo.flat, Entry.is_directory, Entry.is_regular_file, Entry.file_size] at h
  cases size with
  | none => simp at h
  | some s =>
    cases hts : get_last_write_time tz (.file (some s) mt) with
    | error x => simp [hts] at h
    | ok ts =>
      simp only [hts, Bool.false_eq_true, if_false, if_true, Except.ok.injEq] at h
      subst h
      simp

theorem nested_file_eq_flat (tz : Int → Option String) (p : Path) (size : Option Nat)
    (mt : Option Int) (n : Int) :
    DirInfo.nested tz p (some (.file size mt)) n = DirInfo.flat tz p (some (.file size mt)) := by
  simp only [DirInfo.nested, DirInfo.nested_entry, DirInfo.flat, Entry.is_directory,
    Entry.is_regular_file, Entry.file_size]
  cases size with
  | none => simp
  | some s => simp

theorem flat_file_returns (tz : Int → Option String) (p : Path) (s : Nat) (t : Int) :
    ∃ r, DirInfo.flat tz p (some (.file (some s) (some t))) = .ok r := by
  obtain ⟨ts, hts⟩ := get_last_write_time_ok tz (.file (some s) (some t)) t rfl
  simp only [DirInfo.flat, Entry.is_directory, Entry.is_regular_file, Entry.file_size, hts]
  exact ⟨_, rfl⟩

/-- C5.  A result of either scan constructor on a regular file has type File,
`max_depth = -1`, no children and recursive counts 0, and both constructors return one
whenever the size and the modification time of the file can be read; on a path that
does not exist both return type Other, `max_depth = -2`, no children and recursive
counts 0. -/
theorem scan_sentinels (tz : Int → Option String) (p : Path) (n : Int) :
    (∀ (size : Option Nat) (mt : Option Int) (r : DirInfo),
      (DirInfo.flat tz p (some (.file size mt)) = .ok r
        ∨ DirInfo.nested tz p (some (.file size mt)) n = .ok r) →
      r.type = .File ∧ r.max_depth = -1 ∧ r.childs = [] ∧ r.childs_nested = []
        ∧ r.num_childs_recursive = 0 ∧ r.num_childs_dir_recursive = 0
        ∧ r.num_childs_file_recursive = 0 ∧ r.num_childs_other_recursive = 0)
    ∧ (∀ (s : Nat) (t : Int), ∃ r,
        DirInfo.flat tz p (some (.file (some s) (some t))) = .ok r
          ∧ DirInfo.nested tz p (some (.file (some s) (some t))) n = .ok r)
    ∧ (∃ r, DirInfo.flat tz p none = .ok r ∧ DirInfo.nested tz p none n = .ok r
        ∧ r.type = .Other ∧ r.max_depth = -2 ∧ r.childs = [] ∧ r.childs_nested = []
        ∧ r.num_childs_recursive = 0 ∧ r.num_childs_dir_recursive = 0
        ∧ r.num_childs_file_recursive = 0 ∧ r.num_childs_other_recursive = 0) := by
  refine ⟨?_, ?_, ?_⟩
  · intro size mt r h
    rw [nested_file_eq_flat, or_self] at h
    exact flat_file_fields tz p size mt r h
  · intro s t
    obtain ⟨r, hr⟩ := flat_file_returns tz p s t
    exact ⟨r, hr, by rw [nested_file_eq_flat, hr]⟩
  · exact ⟨_, rfl, rfl, rfl, rfl, rfl, rfl, rfl, rfl, rfl, rfl⟩

/-- Witness of C5: both scans of a regular file of 10 bytes give type File and
`max_depth = -1`. -/
theorem scan_sentinels_witness :
    ∃ r, DirInfo.flat scenario_tz ["root", "a.txt"] (some (.file (some 10) (some 100))) = .ok r
      ∧ DirInfo.nested scenario_tz ["root", "a.txt"] (some (.file (some 10) (some 100))) 3
          = .ok r
      ∧ r.type = .File ∧ r.max_depth = -1 ∧ r.childs = [] ∧ r.childs_nested = [] := by
  obtain ⟨r, hr, hr'⟩ := (scan_sentinels scenario_tz ["root", "a.txt"] 3).2.1 10 100
  have h := (scan_sentinels scenario_tz ["root", "a.txt"] 3).1 (some 10) (some 100) r
    (Or.inl hr)
  exact ⟨r, hr, hr', h.1, h.2.1, h.2.2.1, h.2.2.2.1⟩

/-! ## Lemmas: `get_dirstatistic` -/

theorem nested_dir_fields (tz : Int → Option String) (p : Path) (mt : Option Int)
    (listable : Bool) (cs : List (String × Entry)) (n : Int) (r : DirInfo)
    (h : DirInfo.nested tz p (some (.dir mt listable cs)) n = .ok r) :
    r.type = .Directory ∧ r.path = p
      ∧ r.size = (get_dirstatistic p (.dir mt listable cs)).1
      ∧ r.max_depth = ((get_dirstatistic p (.dir mt listable cs)).2.1 : Int) + 1
      ∧ r.num_childs_recursive = (get_dirstatistic p (.dir mt listable cs)).2.2.1
      ∧ r.num_childs_dir_recursive = (get_dirstatistic p (.dir mt listable cs)).2.2.2.1
      ∧ r.num_childs_file_recursive = (get_dirstatistic p (.dir mt listable cs)).2.2.2.2.1
      ∧ r.num_childs_other_recursive = (get_dirstatistic p (.dir mt listable cs)).2.2.2.2.2
      ∧ r.childs = []
      ∧ (n < 0 → r.childs_nested = [] ∧ r.num_child = 0) := by
  simp only [DirInfo.nested, DirInfo.nested_entry] at h
  cases hts : get_last_write_time tz (.dir mt listable cs) with
  | error x => rw [hts] at h; cases h
  | ok ts =>
    rw [hts] at h
    simp only [Except.ok.injEq] at h
    subst h
    refine ⟨rfl, rfl, rfl, rfl, rfl, rfl, rfl, rfl, rfl, ?_⟩
    intro hn
    have : ¬ (0 : Int) ≤ n := by omega
    simp [this, NestedLoop.start, sort_childs_nested, std_sort]

theorem nested_dir_returns (tz : Int → Option String) (p : Path) (t : Int)
    (listable : Bool) (cs : List (String × Entry)) (n : Int) :
    ∃ r, DirInfo.nested tz p (some (.dir (some t) listable cs)) n = .ok r := by
  obtain ⟨ts, hts⟩ := get_last_write_time_ok tz (.dir (some t) listable cs) t rfl
  simp only [DirInfo.nested, DirInfo.nested_entry, hts]
  exact ⟨_, rfl⟩

/-- C7 (the code departs from the claim).  The records take their depth from
`fs::relative(path, root)`, which resolves symbolic links, while `max_depth` is the
greatest `it.depth()`.  On the directory `/home/u/r` holding the one entry `link`, a
symbolic link to `/home/u/data/a/b.txt`, the flat scan returns `max_depth = 0` and one
record, at the path of the link, of depth 3: `fs::relative` gives `../data/a/b.txt`,
while the path of the record is the root path followed by the one component `link`.
When no path below the root holds a symbolic link (the canonical form of a path below
the root is the canonical form of the root followed by the same components) the claim
holds of every result: `max_depth` is 0 when there are no records and otherwise the
greatest depth among the records (an upper bound that a record attains), the path of
every record is the root path followed by a non-empty relative path, which is what
`fs::relative` gives, and the depth of the record is the number of components of that
relative path minus one; the scan then returns a result whenever the status of every
enumerated entry can be queried and the root's own modification time can be read. -/
theorem flat_depth_follows_links :
    (relative link_access ["/", "home", "u", "r", "link"] link_path
        = ["..", "data", "a", "b.txt"]
      ∧ lexically_relative ["/", "home", "u", "r", "link"] link_path = ["link"]
      ∧ ∃ r, DirInfo.flat_at scenario_tz link_access link_path (some link_root) = .ok r
        ∧ r.max_depth = 0
        ∧ r.childs.map (fun c => (c.path, c.type, c.depth))
            = [(["/", "home", "u", "r", "link"], Kind.File, 3)])
    ∧ ∀ (tz : Int → Option String) (fs : Access) (p : Path) (mt : Option Int)
        (listable : Bool) (cs : List (String × Entry)),
      (∀ s, fs.canonical (p ++ s) = fs.canonical p ++ s) →
      (∀ r, DirInfo.flat_at tz fs p (some (.dir mt listable cs)) = .ok r →
        (r.childs = [] → r.max_depth = 0)
          ∧ (∀ c ∈ r.childs, c.depth ≤ r.max_depth)
          ∧ (r.childs ≠ [] → ∃ c ∈ r.childs, c.depth = r.max_depth)
          ∧ (∀ c ∈ r.childs, ∃ rel, c.path = p ++ rel ∧ relative fs c.path p = rel
              ∧ c.depth = (rel.length : Int) - 1 ∧ 0 ≤ c.depth))
      ∧ ((∀ it ∈ recursive_directory_iterator p (.dir mt listable cs),
            fs.statable it.2.1 = true) →
          ∀ t, mt = some t →
            ∃ r, DirInfo.flat_at tz fs p (some (.dir mt listable cs)) = .ok r) := by
  refine ⟨⟨by decide, by decide, ?_⟩, ?_⟩
  · obtain ⟨r, hr⟩ := flat_at_dir_returns scenario_tz link_access link_path 50 true
      [("link", .file (some 7) (some 400))] (fun _ _ => rfl)
    obtain ⟨-, -, -, hmax, -, -, -, -, hch, -⟩ := flat_at_dir_fields _ _ _ _ _ _ r hr
    refine ⟨r, hr, ?_, ?_⟩
    · rw [hmax]; decide
    · rw [hch]; decide
  · intro tz fs p mt listable cs hcanon
    constructor
    · intro r hr
      obtain ⟨-, -, -, hmax, -, -, -, -, hch0, -⟩ := flat_at_dir_fields tz fs p _ _ _ r hr
      have hch : r.childs = sort_childs (flat_loop tz p (.dir mt listable cs)).childs := by
        rw [hch0, enumerated_records_at_splice tz fs p _ hcanon, flat_loop_childs]
      have hmem : ∀ c, c ∈ r.childs ↔
          ∃ it ∈ recursive_directory_iterator p (.dir mt listable cs),
            ChildInfo.init tz p it.2.1 it.2.2 = c := by
        intro c
        rw [hch, (sort_childs_perm _).mem_iff, flat_loop_childs, mem_enumerated_records]
      have hge := flat_fold_max_ge tz p (recursive_directory_iterator p (.dir mt listable cs))
        { max_depth := 0, childs := [], num_childs_dir_recursive := 1,
          num_childs_file_recursive := 0, num_childs_other_recursive := 0 }
      have hat := flat_fold_max_attained tz p
        (recursive_directory_iterator p (.dir mt listable cs))
        { max_depth := 0, childs := [], num_childs_dir_recursive := 1,
          num_childs_file_recursive := 0, num_childs_other_recursive := 0 }
      simp only [] at hge hat
      rw [← flat_loop, ← hmax] at hge hat
      have hle : ∀ c ∈ r.childs, c.depth ≤ r.max_depth ∧ 0 ≤ c.depth := by
        intro c hc
        obtain ⟨it, hit, rfl⟩ := (hmem c).1 hc
        rw [(record_of_iterator tz p _ it hit).1]
        exact ⟨hge.2 it hit, by omega⟩
      refine ⟨?_, fun c hc => (hle c hc).1, ?_, ?_⟩
      · intro hnil
        have hlen : (recursive_directory_iterator p (.dir mt listable cs)).length = 0 := by
          have := congrArg List.length hnil
          rw [hch, (sort_childs_perm _).length_eq, flat_loop_childs, enumerated_records,
            List.length_map] at this
          simpa using this
        rw [hmax, flat_loop, List.length_eq_zero.1 hlen]
        rfl
      · intro hne
        rcases hat with h0 | ⟨it, hit, h⟩
        · obtain ⟨c, hc⟩ := List.exists_mem_of_ne_nil _ hne
          have := hle c hc
          exact ⟨c, hc, by omega⟩
        · refine ⟨ChildInfo.init tz p it.2.1 it.2.2, (hmem _).2 ⟨it, hit, rfl⟩, ?_⟩
          rw [(record_of_iterator tz p _ it hit).1, h]
      · intro c hc
        obtain ⟨it, hit, rfl⟩ := (hmem _).1 hc
        obtain ⟨rel, h1, h2, h3⟩ := (record_of_iterator tz p _ it hit).2
        have h0 := (hle _ hc).2
        have hne : rel ≠ [] := by
          intro h
          rw [h] at h3
          simp at h3
          omega
        refine ⟨rel, h1, ?_, h3, h0⟩
        rw [h1]
        exact relative_splice fs p rel hne (hcanon rel)
    · intro hst t ht
      subst ht
      exact flat_at_dir_returns tz fs p t listable cs hst

/-- Witness of C7: the scenario tree of the spec holds no symbolic link; the scan
returns with `max_depth = 1`, the depth of the record of `sub/b.txt`. -/
theorem flat_depth_follows_links_witness :
    ∃ r, DirInfo.flat_at scenario_tz Access.ideal scenario_path (some scenario_root) = .ok r
      ∧ r.max_depth = 1 ∧ (∀ c ∈ r.childs, c.depth ≤ 1)
      ∧ ∃ c ∈ r.childs, c.depth = 1 := by
  have hthm := flat_depth_follows_links.2 scenario_tz Access.ideal scenario_path (some 50)
    true scenario_children (fun _ => rfl)
  obtain ⟨r, hr⟩ := hthm.2 (fun _ _ => rfl) 50 rfl
  obtain ⟨-, h2, h3, -⟩ := hthm.1 r hr
  obtain ⟨-, -, -, hmax, -, -, -, -, hch, -⟩ := flat_at_dir_fields _ _ _ _ _ _ r hr
  have h1 : r.max_depth = 1 := by rw [hmax]; decide
  have hne : r.childs ≠ [] := by
    intro h
    have := congrArg List.length h
    rw [hch] at this
    revert this
    decide
  rw [h1] at h2 h3
  exact ⟨r, hr, h1, h2, h3 hne⟩

/-! ## Lemmas: the flat renderer -/

theorem child_typestr_idem (num_indent : Nat) (indent_mode : String) (indent_char : Char)
    (t : String) (c c' : ChildInfo) :
    child_typestr num_indent indent_mode indent_char
        (child_typestr num_indent indent_mode indent_char t c) c'
      = child_typestr num_indent indent_mode indent_char t c' := by
  unfold child_typestr
  split_ifs <;> rfl

theorem print_loop_uncapped (disp_depth disp_num : Int) (num_indent : Nat)
    (indent_mode : String) (indent_char : Char) (childs : List ChildInfo) :
    ∀ (count depth_printed : Int) (typestr : String),
      count + (childs.length : Int) ≤ disp_num →
      print_loop disp_depth disp_num num_indent indent_mode indent_char childs count
          depth_printed typestr
        = (childs.filter (fun c => decide (c.depth ≤ disp_depth))).map
            (fun c => Line.row c.timestamp
              (child_typestr num_indent indent_mode indent_char typestr c) c.size c.path) := by
  induction childs with
  | nil => intro _ _ _ _; simp [print_loop]
  | cons c rest ih =>
    intro count depth_printed typestr h
    have hlt : count < disp_num := by
      simp only [List.length_cons] at h; push_cast at h; omega
    have hrest : count + 1 + (rest.length : Int) ≤ disp_num := by
      simp only [List.length_cons] at h; push_cast at h; omega
    simp only [print_loop, hlt, if_true]
    by_cases hd : c.depth ≤ disp_depth
    · simp only [hd, if_true, List.filter_cons, decide_True, List.map_cons]
      rw [ih _ _ _ hrest]
      simp only [child_typestr_idem]
    · simp only [hd, if_false, List.filter_cons, decide_False]
      rw [ih _ _ _ hrest]
      simp

/-- C8.  When the record sequence has at most `disp_num` records, print_childs writes
the header, the root row and then exactly one row for each record of depth at most
`disp_depth`, in the order of the sequence, and nothing for a deeper record. -/
theorem print_childs_depth_filter (d : DirInfo) (disp_depth disp_num : Int)
    (num_indent : Nat) (indent_mode : String) (indent_char : Char)
    (hlen : (d.childs.length : Int) ≤ disp_num) :
    print_childs d disp_depth disp_num num_indent indent_mode indent_char
      = print_header d
        ++ [Line.row d.timestamp (allocate_typestr d.type 0 indent_char) d.size d.path]
        ++ (d.childs.filter (fun c => decide (c.depth ≤ disp_depth))).map
            (fun c => Line.row c.timestamp
              (child_typestr num_indent indent_mode indent_char
                (allocate_typestr d.type 0 indent_char) c) c.size c.path) := by
  simp only [print_childs, mul_zero]
  rw [print_loop_uncapped _ _ _ _ _ _ _ _ _ (by omega)]

/-- Witness of C8: with `disp_depth = 0` and `disp_num = 20` the report of the
scenario scan has the rows of the root, `a.txt` and `sub`, and none for `b.txt`. -/
theorem print_childs_depth_filter_witness :
    ∃ r, DirInfo.flat scenario_tz scenario_path (some scenario_root) = .ok r
      ∧ (r.childs.length : Int) ≤ 20
      ∧ (print_childs r 0 20 4 "|-" '-').filterMap Line.row_path
          = [["root"], ["root", "a.txt"], ["root", "sub"]] := by
  refine ⟨_, rfl, by decide, ?_⟩
  rw [print_childs_depth_filter _ 0 20 4 "|-" '-' (by decide)]
  decide

/-- C9 (the code departs from the claim).  With `disp_depth = 5` and `disp_num = 2` the
report of the scenario scan has the rows of the root, `a.txt` and `sub` only: the one
record of depth 1, `b.txt`, resets the row counter and is not printed. -/
theorem print_childs_drops_band_head :
    ∃ r, DirInfo.flat scenario_tz scenario_path (some scenario_root) = .ok r
      ∧ r.childs.map (fun c => (c.path, c.depth))
          = [(["root", "a.txt"], 0), (["root", "sub"], 0), (["root", "sub", "b.txt"], 1)]
      ∧ (print_childs r 5 2 4 "|-" '-').filterMap Line.row_path
          = [["root"], ["root", "a.txt"], ["root", "sub"]] := by
  exact ⟨_, rfl, by decide, by decide⟩

/-- C10.  Two record sequences that are permutations of each other and whose paths are
pairwise distinct are sorted by `sort_childs` into the same sequence; moreover that
sequence is the only arrangement of the records in which no record is less, under the
comparator, than a record before it, so the order does not depend on how the sort is
carried out either. -/
theorem sort_childs_order_independent (l₁ l₂ : List ChildInfo) (hp : l₁.Perm l₂)
    (hnd : (l₁.map (fun c => c.path)).Nodup) :
    sort_childs l₁ = sort_childs l₂
      ∧ ∀ s : List ChildInfo, s.Perm l₁ →
          s.Pairwise (fun a b => sort_childs_cmp b a = false) → s = sort_childs l₂ := by
  have hnd₁ : ((sort_childs l₁).map (fun c => c.path)).Nodup :=
    (((sort_childs_perm l₁).map _).nodup_iff).2 hnd
  constructor
  · exact sorted_perm_unique
      ((sort_childs_perm l₁).trans (hp.trans (sort_childs_perm l₂).symm)) hnd₁
      (sort_childs_no_inversion l₁) (sort_childs_no_inversion l₂)
  · intro s hs hsorted
    exact sorted_perm_unique (hs.trans (hp.trans (sort_childs_perm l₂).symm))
      (((hs.map _).nodup_iff).2 hnd) hsorted (sort_childs_no_inversion l₂)

/-- Witness of C10: two enumeration orders of the scenario records sort to a.txt, sub,
b.txt. -/
theorem sort_childs_order_independent_witness :
    sort_childs [record_b, record_a, record_sub] = sort_childs [record_sub, record_b, record_a]
      ∧ sort_childs [record_b, record_a, record_sub] = [record_a, record_sub, record_b] :=
  ⟨(sort_childs_order_independent [record_b, record_a, record_sub]
      [record_sub, record_b, record_a]
      (by decide) (by decide)).1, by decide⟩

/-- C11.  Sorting is idempotent: for records with pairwise distinct paths, sorting the
output of `sort_childs` again returns it unchanged; more generally that output is
equal to every arrangement of it in which no record is less, under the comparator,
than a record before it. -/
theorem sort_childs_idempotent (l : List ChildInfo)
    (hnd : (l.map (fun c => c.path)).Nodup) :
    sort_childs (sort_childs l) = sort_childs l
      ∧ ∀ s : List ChildInfo, s.Perm (sort_childs l) →
          s.Pairwise (fun a b => sort_childs_cmp b a = false) → s = sort_childs l := by
  have hnd₁ : ((sort_childs l).map (fun c => c.path)).Nodup :=
    (((sort_childs_perm l).map _).nodup_iff).2 hnd
  constructor
  · exact sorted_perm_unique (sort_childs_perm (sort_childs l))
      ((((sort_childs_perm (sort_childs l)).map _).nodup_iff).2 hnd₁)
      (sort_childs_no_inversion _) (sort_childs_no_inversion l)
  · intro s hs hsorted
    exact sorted_perm_unique hs (((hs.map _).nodup_iff).2 hnd₁) hsorted
      (sort_childs_no_inversion l)

/-- Witness of C11: the scenario records, given as b.txt, a.txt, sub, sort to a.txt, sub,
b.txt, and sorting that again changes nothing. -/
theorem sort_childs_idempotent_witness :
    sort_childs [record_b, record_a, record_sub] = [record_a, record_sub, record_b]
      ∧ sort_childs (sort_childs [record_b, record_a, record_sub])
          = sort_childs [record_b, record_a, record_sub] :=
  ⟨by decide, (sort_childs_idempotent [record_b, record_a, record_sub] (by decide)).1⟩

/-! ## Lemmas: the bytes below a directory -/

mutual
theorem readable_bytes_descend : ∀ (e : Entry) (d : Nat) (p : Path),
    readable_bytes (descend d p e) = subtree_file_bytes e
  | .dir _ true cs, d, p => by
    simp only [descend, subtree_file_bytes]
    exact readable_bytes_iterate cs d p
  | .dir _ false _, _, _ => by simp [descend, subtree_file_bytes, readable_bytes]
  | .file _ _, _, _ => by simp [descend, subtree_file_bytes, readable_bytes]
  | .other _, _, _ => by simp [descend, subtree_file_bytes, readable_bytes]
theorem readable_bytes_iterate : ∀ (cs : List (String × Entry)) (d : Nat) (p : Path),
    readable_bytes (iterate d p cs) = children_file_bytes cs
  | [], _, _ => by simp [iterate, children_file_bytes, readable_bytes]
  | (n, e) :: rest, d, p => by
    have h1 := readable_bytes_descend e (d + 1) (p ++ [n])
    have h2 := readable_bytes_iterate rest d p
    simp only [readable_bytes] at h1 h2
    simp only [iterate, children_file_bytes, readable_bytes, List.map_cons, List.map_append,
      List.sum_cons, List.sum_append, h1, h2]
    omega
end

/-- C13 (the code departs from the claim).  The nested constructor copies the size and
the four recursive counts returned by `get_dirstatistic`, but stores its `max_depth`
incremented by one: 2 instead of 1 on the scenario tree, and 1 instead of 0 on a
directory without entries. -/
theorem nested_max_depth_plus_one :
    (∀ (tz : Int → Option String) (p : Path) (t : Int) (listable : Bool)
        (cs : List (String × Entry)) (n : Int),
      ∃ r, DirInfo.nested tz p (some (.dir (some t) listable cs)) n = .ok r
        ∧ r.size = (get_dirstatistic p (.dir (some t) listable cs)).1
        ∧ r.max_depth = ((get_dirstatistic p (.dir (some t) listable cs)).2.1 : Int) + 1
        ∧ r.num_childs_recursive = (get_dirstatistic p (.dir (some t) listable cs)).2.2.1
        ∧ r.num_childs_dir_recursive
            = (get_dirstatistic p (.dir (some t) listable cs)).2.2.2.1
        ∧ r.num_childs_file_recursive
            = (get_dirstatistic p (.dir (some t) listable cs)).2.2.2.2.1
        ∧ r.num_childs_other_recursive
            = (get_dirstatistic p (.dir (some t) listable cs)).2.2.2.2.2)
    ∧ (get_dirstatistic scenario_path scenario_root).2.1 = 1
    ∧ (∃ r, DirInfo.nested scenario_tz scenario_path (some scenario_root) 3 = .ok r
        ∧ r.max_depth = 2)
    ∧ (get_dirstatistic scenario_path empty_dir).2.1 = 0
    ∧ (∃ r, DirInfo.nested scenario_tz scenario_path (some empty_dir) 3 = .ok r
        ∧ r.max_depth = 1 ∧ r.num_childs_recursive = 0) := by
  refine ⟨?_, by decide, ⟨_, rfl, by decide⟩, by decide, ⟨_, rfl, by decide, by decide⟩⟩
  intro tz p t listable cs n
  obtain ⟨r, hr⟩ := nested_dir_returns tz p t listable cs n
  obtain ⟨-, -, h1, h2, h3, h4, h5, h6, -, -⟩ := nested_dir_fields tz p _ _ _ n r hr
  exact ⟨r, hr, h1, h2, h3, h4, h5, h6⟩

/-! ## Lemmas: the timestamp buffer -/

theorem strftime_buf_eq (s : String) :
    strftime_buf s
      = String.mk ((['\x00', '\x00'] ++ s.toList).take
          (if s.length + 1 ≤ 64 then s.length else 0)) := by
  unfold strftime_buf
  simp only []
  congr 1
  have hl : (['\x00', '\x00'] ++ s.toList).length = 2 + s.length := by
    rw [List.length_append]; rfl
  have hlen : (if s.length + 1 ≤ 64 then s.length else 0)
      ≤ (['\x00', '\x00'] ++ s.toList).length := by
    rw [hl]; split_ifs <;> omega
  have h2 : List.take 2 (List.replicate 64 '\x00') = ['\x00', '\x00'] := by decide
  rw [h2, List.append_assoc, List.take_append_of_le_length hlen]

/-- C15 (the code departs from the claim).  Both overloads of get_last_write_time let
`strftime` write from position 2 of the buffer and then cut the buffer to the returned
length: the string they return is two NUL characters followed by the formatted time
without its last two characters.  For the instant formatted as `2024-01-02 03:04:05`
that is two NULs and `2024-01-02 03:04:`, a string of 19 characters that is not the
formatted time. -/
theorem timestamp_buffer_shifted :
    (∀ s : String, strftime_buf s
        = String.mk ((['\x00', '\x00'] ++ s.toList).take
            (if s.length + 1 ≤ 64 then s.length else 0)))
    ∧ scenario_tz 100 = some "2024-01-02 03:04:05"
    ∧ get_last_write_time scenario_tz (.file (some 10) (some 100))
        = .ok (String.mk (['\x00', '\x00'] ++ "2024-01-02 03:04:".toList), 100)
    ∧ get_last_write_time_into scenario_tz (.file (some 10) (some 100)) "" 0
        = (String.mk (['\x00', '\x00'] ++ "2024-01-02 03:04:".toList), 100)
    ∧ (String.mk (['\x00', '\x00'] ++ "2024-01-02 03:04:".toList)).length = 19
    ∧ String.mk (['\x00', '\x00'] ++ "2024-01-02 03:04:".toList) ≠ "2024-01-02 03:04:05" := by
  refine ⟨strftime_buf_eq, rfl, by rfl, by rfl, by decide, by decide⟩

/-! ## Lemmas: the comparator of `sort_childs_nested` -/

theorem sort_childs_nested_cmp_iff (a b : DirInfo) :
    sort_childs_nested_cmp a b = true ↔ nested_sort_key a < nested_sort_key b := by
  simp only [sort_childs_nested_cmp, nested_sort_key, Prod.Lex.lt_iff]
  split_ifs with h1 <;> simp_all
  all_goals first | omega | exact path_lt_iff _ _

theorem sort_childs_nested_cmp_false_iff (a b : DirInfo) :
    sort_childs_nested_cmp b a = false ↔ nested_sort_key a ≤ nested_sort_key b := by
  rw [← not_lt, ← sort_childs_nested_cmp_iff]; simp

theorem nested_key_le_iff (a b : DirInfo) :
    nested_key_le a b ↔ nested_sort_key a ≤ nested_sort_key b := by
  simp only [nested_key_le, nested_sort_key, Prod.Lex.le_iff, path_lt_iff, ofLex_toLex]
  simp only [le_iff_lt_or_eq, path_key_injective.eq_iff, type_priority_lt_iff,
    type_priority_eq_iff]

theorem sort_childs_nested_sorted (l : List DirInfo) :
    (sort_childs_nested l).Pairwise nested_key_le := by
  have h := std_sort_sorted sort_childs_nested_cmp
    (fun a b hab => by
      rw [sort_childs_nested_cmp_false_iff]
      exact le_of_lt ((sort_childs_nested_cmp_iff a b).1 hab))
    (fun a b c h1 h2 => by
      rw [sort_childs_nested_cmp_false_iff] at *
      exact le_trans h1 h2) l
  refine h.imp ?_
  intro a b hab
  rw [nested_key_le_iff]
  exact (sort_childs_nested_cmp_false_iff a b).1 hab

theorem sort_childs_nested_perm (l : List DirInfo) : (sort_childs_nested l).Perm l :=
  std_sort_perm _ l

theorem every_node_def (P : DirInfo → Prop) (d : DirInfo) :
    every_node P d ↔ P d ∧ every_node_list P d.childs_nested := by
  cases d
  simp [every_node]

theorem every_node_list_iff (P : DirInfo → Prop) (ds : List DirInfo) :
    every_node_list P ds ↔ ∀ d ∈ ds, every_node P d := by
  induction ds with
  | nil => simp [every_node_list]
  | cons d ds ih => simp [every_node_list, ih]

theorem nested_loop_start_ok (P : DirInfo → Prop) :
    every_node_list P NestedLoop.start.childs_nested
      ∧ NestedLoop.start.childs_nested.length
          = NestedLoop.start.num_child_dir + NestedLoop.start.num_child_file
            + NestedLoop.start.num_child_other := by
  simp [NestedLoop.start, every_node_list]

theorem every_node_list_append (P : DirInfo → Prop) (ds : List DirInfo) (d : DirInfo) :
    every_node_list P (ds ++ [d]) ↔ every_node_list P ds ∧ every_node P d := by
  simp only [every_node_list_iff, List.mem_append, List.mem_singleton]
  constructor
  · intro h
    exact ⟨fun x hx => h x (Or.inl hx), h d (Or.inr rfl)⟩
  · rintro ⟨h1, h2⟩ x (hx | rfl)
    · exact h1 x hx
    · exact h2

mutual
theorem nested_entry_bounded (tz : Int → Option String) :
    ∀ (e : Entry) (p : Path) (n : Int) (r : DirInfo),
      DirInfo.nested_entry tz p n e = .ok r → every_node node_sorted_bounded r
  | .dir mt listable cs, p, n, r, h => by
    simp only [DirInfo.nested_entry] at h
    cases hts : get_last_write_time tz (.dir mt listable cs) with
    | error x => rw [hts] at h; cases h
    | ok ts =>
      rw [hts] at h
      simp only [Except.ok.injEq] at h
      subst h
      have hl : ∀ l : NestedLoop,
          l = (if (0 : Int) ≤ n then
                (if listable = true then nested_loop tz p n 0 cs NestedLoop.start
                  else NestedLoop.start)
              else NestedLoop.start) →
          every_node_list node_sorted_bounded l.childs_nested
            ∧ l.childs_nested.length
                ≤ l.num_child_dir + l.num_child_file + l.num_child_other := by
        intro l hl
        subst hl
        have hstart := nested_loop_start_ok node_sorted_bounded
        split_ifs
        · exact nested_loop_bounded tz cs p n 0 NestedLoop.start hstart.1 (le_of_eq hstart.2)
        · exact ⟨hstart.1, le_of_eq hstart.2⟩
        · exact ⟨hstart.1, le_of_eq hstart.2⟩
      obtain ⟨h1, h2⟩ := hl _ rfl
      rw [every_node_def]
      refine ⟨⟨sort_childs_nested_sorted _, rfl, ?_⟩, ?_⟩
      · simp only []
        rw [(sort_childs_nested_perm _).length_eq]
        exact h2
      · simp only []
        rw [every_node_list_iff] at h1 ⊢
        intro d hd
        exact h1 d ((sort_childs_nested_perm _).mem_iff.1 hd)
  | .file size mt, p, n, r, h => by
    simp only [DirInfo.nested_entry] at h
    cases size with
    | none => simp at h
    | some s =>
      cases hts : get_last_write_time tz (.file (some s) mt) with
      | error x => simp [hts] at h
      | ok ts =>
        simp only [hts, Except.ok.injEq] at h
        subst h
        rw [every_node_def]
        simp [node_sorted_bounded, every_node_list]
  | .other mt, p, n, r, h => by
    simp only [DirInfo.nested_entry] at h
    cases hts : get_last_write_time tz (.other mt) with
    | error x => simp [hts] at h
    | ok ts =>
      simp only [hts, Except.ok.injEq] at h
      subst h
      rw [every_node_def]
      simp [node_sorted_bounded, every_node_list]
theorem nested_loop_bounded (tz : Int → Option String) :
    ∀ (cs : List (String × Entry)) (p : Path) (n ed : Int) (s : NestedLoop),
      every_node_list node_sorted_bounded s.childs_nested →
      s.childs_nested.length ≤ s.num_child_dir + s.num_child_file + s.num_child_other →
      every_node_list node_sorted_bounded (nested_loop tz p n ed cs s).childs_nested
        ∧ (nested_loop tz p n ed cs s).childs_nested.length
            ≤ (nested_loop tz p n ed cs s).num_child_dir
              + (nested_loop tz p n ed cs s).num_child_file
              + (nested_loop tz p n ed cs s).num_child_other
  | [], p, n, ed, s, h1, h2 => by
    simp only [nested_loop]
    exact ⟨h1, h2⟩
  | (nm, e) :: rest, p, n, ed, s, h1, h2 => by
    simp only [nested_loop]
    split_ifs
    · cases hc : DirInfo.nested_entry tz (p ++ [nm]) (n - ed - 1) e with
      | error x => exact ⟨h1, by simp only []; omega⟩
      | ok d =>
        simp only []
        exact nested_loop_bounded tz rest p n ed _
          ((every_node_list_append _ _ _).2 ⟨h1, nested_entry_bounded tz e _ _ d hc⟩)
          (by simp only [List.length_append, List.length_singleton]; omega)
    · cases hc : DirInfo.nested_entry tz (p ++ [nm]) (-1) e with
      | error x => exact ⟨h1, by simp only []; omega⟩
      | ok d =>
        simp only []
        exact nested_loop_bounded tz rest p n ed _
          ((every_node_list_append _ _ _).2 ⟨h1, nested_entry_bounded tz e _ _ d hc⟩)
          (by simp only [List.length_append, List.length_singleton]; omega)
    · cases hc : DirInfo.nested_entry tz (p ++ [nm]) (-1) e with
      | error x => exact ⟨h1, by simp only []; omega⟩
      | ok d =>
        simp only []
        exact nested_loop_bounded tz rest p n ed _
          ((every_node_list_append _ _ _).2 ⟨h1, nested_entry_bounded tz e _ _ d hc⟩)
          (by simp only [List.length_append, List.length_singleton]; omega)
end

theorem get_last_write_time_some (tz : Int → Option String) (e : Entry)
    (h : e.last_write_time.isSome = true) : ∃ ts, get_last_write_time tz e = .ok ts := by
  obtain ⟨t, ht⟩ := Option.isSome_iff_exists.1 h
  obtain ⟨ts, hts⟩ := get_last_write_time_ok tz e t ht
  exact ⟨_, hts⟩

mutual
theorem nested_entry_counted (tz : Int → Option String) :
    ∀ (e : Entry) (p : Path) (n : Int), all_readable e = true →
      ∃ r, DirInfo.nested_entry tz p n e = .ok r ∧ every_node node_sorted_counted r
  | .dir mt listable cs, p, n, h => by
    simp only [all_readable, Bool.and_eq_true] at h
    obtain ⟨ts, hts⟩ := get_last_write_time_some tz (.dir mt listable cs) h.1
    simp only [DirInfo.nested_entry, hts]
    refine ⟨_, rfl, ?_⟩
    have hl : ∀ l : NestedLoop,
        l = (if (0 : Int) ≤ n then
              (if listable = true then nested_loop tz p n 0 cs NestedLoop.start
                else NestedLoop.start)
            else NestedLoop.start) →
        every_node_list node_sorted_counted l.childs_nested
          ∧ l.childs_nested.length = l.num_child_dir + l.num_child_file + l.num_child_other := by
      intro l hl
      subst hl
      split_ifs
      · exact nested_loop_counted tz cs p n 0 NestedLoop.start h.2
          (nested_loop_start_ok _).1 (nested_loop_start_ok node_sorted_counted).2
      · exact nested_loop_start_ok _
      · exact nested_loop_start_ok _
    obtain ⟨h1, h2⟩ := hl _ rfl
    rw [every_node_def]
    refine ⟨⟨sort_childs_nested_sorted _, rfl, ?_⟩, ?_⟩
    · simp only []
      rw [(sort_childs_nested_perm _).length_eq]
      exact h2
    · simp only []
      rw [every_node_list_iff] at h1 ⊢
      intro d hd
      exact h1 d ((sort_childs_nested_perm _).mem_iff.1 hd)
  | .file size mt, p, n, h => by
    simp only [all_readable, Bool.and_eq_true] at h
    obtain ⟨s, rfl⟩ := Option.isSome_iff_exists.1 h.1
    obtain ⟨ts, hts⟩ := get_last_write_time_some tz (.file (some s) mt) h.2
    simp only [DirInfo.nested_entry, hts]
    refine ⟨_, rfl, ?_⟩
    rw [every_node_def]
    simp [node_sorted_counted, every_node_list]
  | .other mt, p, n, h => by
    simp only [all_readable] at h
    obtain ⟨ts, hts⟩ := get_last_write_time_some tz (.other mt) h
    simp only [DirInfo.nested_entry, hts]
    refine ⟨_, rfl, ?_⟩
    rw [every_node_def]
    simp [node_sorted_counted, every_node_list]
theorem nested_loop_counted (tz : Int → Option String) :
    ∀ (cs : List (String × Entry)) (p : Path) (n ed : Int) (s : NestedLoop),
      all_readable_list cs = true →
      every_node_list node_sorted_counted s.childs_nested →
      s.childs_nested.length = s.num_child_dir + s.num_child_file + s.num_child_other →
      every_node_list node_sorted_counted (nested_loop tz p n ed cs s).childs_nested
        ∧ (nested_loop tz p n ed cs s).childs_nested.length
            = (nested_loop tz p n ed cs s).num_child_dir
              + (nested_loop tz p n ed cs s).num_child_file
              + (nested_loop tz p n ed cs s).num_child_other
  | [], p, n, ed, s, _, h1, h2 => by
    simp only [nested_loop]
    exact ⟨h1, h2⟩
  | (nm, e) :: rest, p, n, ed, s, hr, h1, h2 => by
    simp only [all_readable_list, Bool.and_eq_true] at hr
    simp only [nested_loop]
    split_ifs
    · obtain ⟨d, hc, hd⟩ := nested_entry_counted tz e (p ++ [nm]) (n - ed - 1) hr.1
      simp only [hc]
      exact nested_loop_counted tz rest p n ed _ hr.2
        ((every_node_list_append _ _ _).2 ⟨h1, hd⟩)
        (by simp only [List.length_append, List.length_singleton]; omega)
    · obtain ⟨d, hc, hd⟩ := nested_entry_counted tz e (p ++ [nm]) (-1) hr.1
      simp only [hc]
      exact nested_loop_counted tz rest p n ed _ hr.2
        ((every_node_list_append _ _ _).2 ⟨h1, hd⟩)
        (by simp only [List.length_append, List.length_singleton]; omega)
    · obtain ⟨d, hc, hd⟩ := nested_entry_counted tz e (p ++ [nm]) (-1) hr.1
      simp only [hc]
      exact nested_loop_counted tz rest p n ed _ hr.2
        ((every_node_list_append _ _ _).2 ⟨h1, hd⟩)
        (by simp only [List.length_append, List.length_singleton]; omega)
end

/-- C14 (the code departs from the claim).  In the enumeration loop of the nested
constructor the immediate counter is incremented before the child is constructed, and a
child constructor that throws leaves the loop through the `catch` clause: for a
directory holding one regular file whose modification time cannot be read (the child
constructor throws from `entry.last_write_time()`), the scan with bound 0 returns a
node with `num_child = num_child_file = 1` and an empty `childs_nested`.  What holds at
every node of every result is that `childs_nested` is in the order of the spec (kind
priority File = 0 < Directory = 1 < Other = 2, then path), `num_child` is the sum of
the three immediate counts, and `childs_nested` is not longer than `num_child`; the
length equals `num_child` at every node when the size and modification time of every
entry can be read. -/
theorem nested_count_exceeds_children :
    (∃ r, DirInfo.nested scenario_tz scenario_path (some untimed_root) 0 = .ok r
      ∧ r.num_child = 1 ∧ r.num_child_file = 1 ∧ r.childs_nested.length = 0)
    ∧ (∀ (tz : Int → Option String) (p : Path) (e : Entry) (n : Int) (r : DirInfo),
        DirInfo.nested tz p (some e) n = .ok r → every_node node_sorted_bounded r)
    ∧ (∀ (tz : Int → Option String) (p : Path) (e : Entry) (n : Int),
        all_readable e = true →
        ∃ r, DirInfo.nested tz p (some e) n = .ok r ∧ every_node node_sorted_counted r) := by
  refine ⟨⟨_, rfl, by decide, by decide, by decide⟩, ?_, ?_⟩
  · intro tz p e n r h
    exact nested_entry_bounded tz e p n r h
  · intro tz p e n h
    exact nested_entry_counted tz e p n h

/-- Witness of C14: every entry of the scenario tree and of the directory of mixed
kinds is readable; the nested scan of the scenario tree with bound 3 returns a tree
whose nodes all have their children in order and counted, and the nested scan of the
directory of mixed kinds returns the children z.txt (File), m (Directory), a.sock
(Other), against the order of their paths. -/
theorem nested_count_exceeds_children_witness :
    all_readable scenario_root = true
      ∧ (∃ r, DirInfo.nested scenario_tz scenario_path (some scenario_root) 3 = .ok r
          ∧ every_node node_sorted_counted r ∧ every_node node_sorted_bounded r)
      ∧ all_readable mixed_root = true
      ∧ ∃ r, DirInfo.nested scenario_tz scenario_path (some mixed_root) 0 = .ok r
          ∧ every_node node_sorted_counted r
          ∧ r.childs_nested.map (fun d => (d.path, d.type))
              = [(["root", "z.txt"], Kind.File), (["root", "m"], Kind.Directory),
                 (["root", "a.sock"], Kind.Other)] := by
  obtain ⟨r, hr, h⟩ :=
    nested_count_exceeds_children.2.2 scenario_tz scenario_path scenario_root 3 (by decide)
  obtain ⟨r', hr', h'⟩ :=
    nested_count_exceeds_children.2.2 scenario_tz scenario_path mixed_root 0 (by decide)
  refine ⟨by decide, ⟨r, hr, h,
    nested_count_exceeds_children.2.1 scenario_tz scenario_path scenario_root 3 r hr⟩,
    by decide, r', hr', h', ?_⟩
  have heq : DirInfo.nested scenario_tz scenario_path (some mixed_root) 0 = .ok _ := rfl
  rw [heq] at hr'
  injection hr' with hr'
  subst hr'
  decide

/-! ## Lemmas: `load_recursive` -/

theorem load_loop_counted (tz : Int → Option String) (p : Path) (n ed : Int)
    (cs : List (String × Entry)) :
    ∀ s : NestedLoop, (load_loop tz p n ed cs s).2 = none →
      s.childs_nested.length = s.num_child_dir + s.num_child_file + s.num_child_other →
      (load_loop tz p n ed cs s).1.childs_nested.length
        = (load_loop tz p n ed cs s).1.num_child_dir
          + (load_loop tz p n ed cs s).1.num_child_file
          + (load_loop tz p n ed cs s).1.num_child_other := by
  induction cs with
  | nil => intro s _ h; simpa [load_loop] using h
  | cons x rest ih =>
    obtain ⟨nm, e⟩ := x
    intro s hnone h
    simp only [load_loop] at hnone ⊢
    split_ifs at hnone ⊢
    · cases hc : DirInfo.nested_entry tz (p ++ [nm]) (n - ed - 1) e with
      | error x => rw [hc] at hnone; simp at hnone
      | ok d =>
        rw [hc] at hnone
        simp only [] at hnone ⊢
        exact ih _ hnone (by simp only [List.length_append, List.length_singleton]; omega)
    · cases hc : DirInfo.nested_entry tz (p ++ [nm]) (-1) e with
      | error x => rw [hc] at hnone; simp at hnone
      | ok d =>
        rw [hc] at hnone
        simp only [] at hnone ⊢
        exact ih _ hnone (by simp only [List.length_append, List.length_singleton]; omega)
    · cases hc : DirInfo.nested_entry tz (p ++ [nm]) (-1) e with
      | error x => rw [hc] at hnone; simp at hnone
      | ok d =>
        rw [hc] at hnone
        simp only [] at hnone ⊢
        exact ih _ hnone (by simp only [List.length_append, List.length_singleton]; omega)

theorem load_loop_readable (tz : Int → Option String) (p : Path) (n ed : Int)
    (cs : List (String × Entry)) (hr : all_readable_list cs = true) :
    ∀ s : NestedLoop, (load_loop tz p n ed cs s).2 = none := by
  induction cs with
  | nil => intro s; rfl
  | cons x rest ih =>
    obtain ⟨nm, e⟩ := x
    simp only [all_readable_list, Bool.and_eq_true] at hr
    intro s
    simp only [load_loop]
    split_ifs
    · obtain ⟨d, hc, -⟩ := nested_entry_counted tz e (p ++ [nm]) (n - ed - 1) hr.1
      simp only [hc]
      exact ih hr.2 _
    · obtain ⟨d, hc, -⟩ := nested_entry_counted tz e (p ++ [nm]) (-1) hr.1
      simp only [hc]
      exact ih hr.2 _
    · obtain ⟨d, hc, -⟩ := nested_entry_counted tz e (p ++ [nm]) (-1) hr.1
      simp only [hc]
      exact ih hr.2 _

/-- C17.  For every node, every state of the filesystem at its path and every bound,
load_recursive leaves the type, path, size, `max_depth`, timestamp, instant, the four
recursive counts and the flat `childs` list of the node as they were, also when the
call ends with an exception.  When the path holds a directory and the call returns,
`num_child` is the length of the new `childs_nested` and the sum of the three
immediate counts; when the path does not hold a directory the node is unchanged and
the call returns.  The call returns whenever the size and modification time of every
entry below the path can be read. -/
theorem load_recursive_frame (tz : Int → Option String) (node : DirInfo)
    (st : Option Entry) (k : Int) :
    ((DirInfo.load_recursive tz node st k).1.type = node.type
      ∧ (DirInfo.load_recursive tz node st k).1.path = node.path
      ∧ (DirInfo.load_recursive tz node st k).1.size = node.size
      ∧ (DirInfo.load_recursive tz node st k).1.max_depth = node.max_depth
      ∧ (DirInfo.load_recursive tz node st k).1.timestamp = node.timestamp
      ∧ (DirInfo.load_recursive tz node st k).1.sctp = node.sctp
      ∧ (DirInfo.load_recursive tz node st k).1.num_childs_recursive
          = node.num_childs_recursive
      ∧ (DirInfo.load_recursive tz node st k).1.num_childs_dir_recursive
          = node.num_childs_dir_recursive
      ∧ (DirInfo.load_recursive tz node st k).1.num_childs_file_recursive
          = node.num_childs_file_recursive
      ∧ (DirInfo.load_recursive tz node st k).1.num_childs_other_recursive
          = node.num_childs_other_recursive
      ∧ (DirInfo.load_recursive tz node st k).1.childs = node.childs)
    ∧ ((DirInfo.load_recursive tz node st k).2 = none →
        ∀ e, st = some e → e.is_directory = true →
          (DirInfo.load_recursive tz node st k).1.num_child
              = (DirInfo.load_recursive tz node st k).1.childs_nested.length
            ∧ (DirInfo.load_recursive tz node st k).1.num_child
              = (DirInfo.load_recursive tz node st k).1.num_child_dir
                + (DirInfo.load_recursive tz node st k).1.num_child_file
                + (DirInfo.load_recursive tz node st k).1.num_child_other)
    ∧ ((∀ e, st = some e → e.is_directory = false) →
        DirInfo.load_recursive tz node st k = (node, none))
    ∧ (∀ e, st = some e → all_readable e = true →
        (DirInfo.load_recursive tz node st k).2 = none) := by
  cases st with
  | none =>
    refine ⟨by simp [DirInfo.load_recursive], ?_, fun _ => rfl, ?_⟩
    · intro _ e he; cases he
    · intro e he; cases he
  | some e =>
    cases e with
    | file size mt =>
      refine ⟨by simp [DirInfo.load_recursive], ?_, fun _ => rfl, fun _ _ _ => rfl⟩
      intro _ e he hd
      cases he
      simp [Entry.is_directory] at hd
    | other mt =>
      refine ⟨by simp [DirInfo.load_recursive], ?_, fun _ => rfl, fun _ _ _ => rfl⟩
      intro _ e he hd
      cases he
      simp [Entry.is_directory] at hd
    | dir mt listable cs =>
      have key : ∀ l : NestedLoop × Option Throw,
          l = (if k ≥ 0 then
                (if listable = true then load_loop tz node.path k 1 cs NestedLoop.start
                  else (NestedLoop.start, none))
              else (NestedLoop.start, none)) →
          (l.2 = none → l.1.childs_nested.length
              = l.1.num_child_dir + l.1.num_child_file + l.1.num_child_other)
            ∧ (all_readable_list cs = true → l.2 = none) := by
        intro l hl
        subst hl
        split_ifs
        · exact ⟨fun h => load_loop_counted tz node.path k 1 cs _ h
              (nested_loop_start_ok node_sorted_counted).2,
            fun h => load_loop_readable tz node.path k 1 cs h _⟩
        · exact ⟨fun _ => (nested_loop_start_ok node_sorted_counted).2, fun _ => rfl⟩
        · exact ⟨fun _ => (nested_loop_start_ok node_sorted_counted).2, fun _ => rfl⟩
      simp only [DirInfo.load_recursive]
      generalize hl : (if k ≥ 0 then
                (if listable = true then load_loop tz node.path k 1 cs NestedLoop.start
                  else (NestedLoop.start, none))
              else (NestedLoop.start, none)) = l
      obtain ⟨h1, h2⟩ := key l hl.symm
      obtain ⟨l1, l2⟩ := l
      cases l2 with
      | some x =>
        refine ⟨by simp, ?_, ?_, ?_⟩
        · intro h; simp at h
        · intro h
          have := h _ rfl
          simp [Entry.is_directory] at this
        · intro e he hr
          cases he
          simp only [all_readable, Bool.and_eq_true] at hr
          have := h2 hr.2
          simp at this
      | none =>
        refine ⟨by simp, ?_, ?_, fun _ _ _ => rfl⟩
        · intro _ e _ _
          simp only []
          rw [(sort_childs_nested_perm _).length_eq]
          exact ⟨(h1 rfl).symm, trivial⟩
        · intro h
          have := h _ rfl
          simp [Entry.is_directory] at this

/-- Witness of C17: refreshing the scenario root, held as a node without children, with
bound 1 returns; the node then has its two direct children, `num_child = 2`, and its
size and `max_depth` as before. -/
theorem load_recursive_frame_witness :
    (DirInfo.load_recursive scenario_tz scenario_node (some scenario_root) 1).2 = none
      ∧ (DirInfo.load_recursive scenario_tz scenario_node (some scenario_root) 1).1.num_child
          = (DirInfo.load_recursive scenario_tz scenario_node
              (some scenario_root) 1).1.childs_nested.length
      ∧ (DirInfo.load_recursive scenario_tz scenario_node (some scenario_root) 1).1.num_child
          = 2
      ∧ (DirInfo.load_recursive scenario_tz scenario_node (some scenario_root) 1).1.size
          = scenario_node.size
      ∧ DirInfo.load_recursive scenario_tz scenario_node
          (some (.file (some 10) (some 100))) 1 = (scenario_node, none) := by
  have h := load_recursive_frame scenario_tz scenario_node (some scenario_root) 1
  have hret := h.2.2.2 scenario_root rfl (by decide)
  refine ⟨hret, (h.2.1 hret scenario_root rfl (by decide)).1, by decide, h.1.2.2.1, ?_⟩
  exact (load_recursive_frame scenario_tz scenario_node
    (some (.file (some 10) (some 100))) 1).2.2.1 (by
      intro e he
      cases he
      rfl)

/-! ## Lemmas: the row cap of the flat renderer -/

theorem print_loop_eq_map (disp_depth disp_num : Int) (num_indent : Nat)
    (indent_mode : String) (indent_char : Char) (childs : List ChildInfo) :
    ∀ (count depth_printed : Int) (typestr : String),
      print_loop disp_depth disp_num num_indent indent_mode indent_char childs count
          depth_printed typestr
        = (printed_records disp_depth disp_num childs count depth_printed).map
            (fun c => Line.row c.timestamp
              (child_typestr num_indent indent_mode indent_char typestr c) c.size c.path) := by
  induction childs with
  | nil => intro _ _ _; simp [print_loop, printed_records]
  | cons c rest ih =>
    intro count depth_printed typestr
    simp only [print_loop, printed_records]
    split_ifs
    all_goals first
      | exact ih _ _ _
      | rfl
      | simp only [List.map_cons, ih, child_typestr_idem]

theorem printed_records_sublist (disp_depth disp_num : Int) (childs : List ChildInfo) :
    ∀ (count depth_printed : Int),
      (printed_records disp_depth disp_num childs count depth_printed).Sublist childs := by
  induction childs with
  | nil => intro _ _; simp [printed_records]
  | cons c rest ih =>
    intro count depth_printed
    simp only [printed_records]
    split_ifs
    all_goals first
      | exact (ih _ _).cons₂ c
      | exact (ih _ _).cons c
      | exact List.nil_sublist _

theorem printed_records_none (disp_depth disp_num : Int) (hnum : disp_num ≤ 0)
    (childs : List ChildInfo) :
    ∀ (count depth_printed : Int), 0 ≤ count →
      printed_records disp_depth disp_num childs count depth_printed = [] := by
  induction childs with
  | nil => intro _ _ _; simp [printed_records]
  | cons c rest ih =>
    intro count depth_printed hc
    have hnot : ¬ count < disp_num := by omega
    simp only [printed_records, hnot, if_false]
    split_ifs
    all_goals first
      | exact ih _ _ (le_refl 0)
      | exact ih _ _ hc
      | rfl

theorem printed_records_bound (disp_depth disp_num : Int) (childs : List ChildInfo) :
    ∀ (count depth_printed : Int),
      childs.Pairwise (fun a b => a.depth ≤ b.depth) → 0 ≤ count →
      (disp_num ≤ count → ∀ c ∈ childs, depth_printed ≤ c.depth) →
      ∀ k : Int,
        (((printed_records disp_depth disp_num childs count depth_printed).countP
            (fun c => decide (c.depth = k)) : Nat) : Int) ≤ max disp_num 0
        ∧ ((∀ c ∈ childs, depth_printed ≤ c.depth) → k ≤ depth_printed →
            (((printed_records disp_depth disp_num childs count depth_printed).countP
              (fun c => decide (c.depth = k)) : Nat) : Int) ≤ max (disp_num - count) 0) := by
  induction childs with
  | nil => intro _ _ _ _ _ k; simp [printed_records]
  | cons x rest ih =>
    intro count dp hsorted hcount hcap k
    rw [List.pairwise_cons] at hsorted
    obtain ⟨hx, hrest⟩ := hsorted
    simp only [printed_records]
    by_cases hlt : count < disp_num
    · simp only [hlt, if_true]
      obtain ⟨ih1, ih2⟩ := ih (count + 1) x.depth hrest (by omega) (fun _ => hx) k
      have ih2' := ih2 hx
      by_cases hd : x.depth ≤ disp_depth
      · simp only [hd, if_true, List.countP_cons]
        by_cases hk : x.depth = k
        · subst hk
          have hk' := ih2' (le_refl _)
          simp only [decide_True, if_true]
          push_cast
          constructor
          · omega
          · intro _ _; omega
        · simp only [hk, decide_False, Bool.false_eq_true, if_false, add_zero]
          refine ⟨ih1, ?_⟩
          intro hall hkdp
          have := ih2' (le_trans hkdp (hall x (List.mem_cons_self _ _)))
          omega
      · simp only [hd, if_false]
        refine ⟨ih1, ?_⟩
        intro hall hkdp
        have := ih2' (le_trans hkdp (hall x (List.mem_cons_self _ _)))
        omega
    · simp only [hlt, if_false]
      have hall := hcap (by omega)
      have hallrest : ∀ c ∈ rest, dp ≤ c.depth :=
        fun c hc => hall c (List.mem_cons_of_mem _ hc)
      by_cases hd : x.depth ≤ disp_depth
      · simp only [hd, if_true]
        by_cases hreset : x.depth - dp = 1
        · simp only [hreset, if_true]
          obtain ⟨ih1, -⟩ := ih 0 dp hrest (le_refl 0) (fun _ => hallrest) k
          refine ⟨ih1, ?_⟩
          intro _ hkdp
          have hzero : (printed_records disp_depth disp_num rest 0 dp).countP
              (fun c => decide (c.depth = k)) = 0 := by
            rw [List.countP_eq_zero]
            intro c hc
            have hmem := (printed_records_sublist disp_depth disp_num rest 0 dp).subset hc
            have := hx c hmem
            simp only [decide_eq_true_eq]
            omega
          rw [hzero]
          simp
        · simp only [hreset, if_false]
          obtain ⟨ih1, ih2⟩ := ih count dp hrest hcount (fun _ => hallrest) k
          exact ⟨ih1, fun _ hkdp => ih2 hallrest hkdp⟩
      · simp [hd]

/-- C18.  For a record sequence with non-decreasing depths, print_childs writes the
header, the root row and then the rows of a subsequence of the records (in their order,
none twice), and for every depth value that subsequence has at most `max(disp_num, 0)`
records of that depth. -/
theorem print_childs_row_cap (d : DirInfo) (disp_depth disp_num : Int) (num_indent : Nat)
    (indent_mode : String) (indent_char : Char)
    (hsorted : d.childs.Pairwise (fun a b => a.depth ≤ b.depth)) :
    print_childs d disp_depth disp_num num_indent indent_mode indent_char
        = print_header d
          ++ [Line.row d.timestamp (allocate_typestr d.type 0 indent_char) d.size d.path]
          ++ (printed_records disp_depth disp_num d.childs 0 (-1)).map
              (fun c => Line.row c.timestamp
                (child_typestr num_indent indent_mode indent_char
                  (allocate_typestr d.type 0 indent_char) c) c.size c.path)
      ∧ (printed_records disp_depth disp_num d.childs 0 (-1)).Sublist d.childs
      ∧ ∀ k : Int,
          (((printed_records disp_depth disp_num d.childs 0 (-1)).countP
            (fun c => decide (c.depth = k)) : Nat) : Int) ≤ max disp_num 0 := by
  refine ⟨?_, printed_records_sublist _ _ _ _ _, ?_⟩
  · simp only [print_childs, mul_zero]
    rw [print_loop_eq_map]
  · intro k
    by_cases hnum : disp_num ≤ 0
    · rw [printed_records_none disp_depth disp_num hnum d.childs 0 (-1) (le_refl 0)]
      simp
    · exact (printed_records_bound disp_depth disp_num d.childs 0 (-1) hsorted (le_refl 0)
        (fun h => absurd h (by omega)) k).1

/-- Witness of C18: with `disp_depth = 5` and `disp_num = 1` the report of the scenario
records has, after the root row, the row of a.txt only: one record of depth 0 and none
of depth 1. -/
theorem print_childs_row_cap_witness :
    scenario_listing.childs.Pairwise (fun a b => a.depth ≤ b.depth)
      ∧ printed_records 5 1 scenario_listing.childs 0 (-1) = [record_a]
      ∧ (print_childs scenario_listing 5 1 4 "|-" '-').filterMap Line.row_path
          = [["root"], ["root", "a.txt"]]
      ∧ (((printed_records 5 1 scenario_listing.childs 0 (-1)).countP
            (fun c => decide (c.depth = 0)) : Nat) : Int) ≤ max 1 0 := by
  have hs : scenario_listing.childs.Pairwise (fun a b => a.depth ≤ b.depth) := by decide
  have h := print_childs_row_cap scenario_listing 5 1 4 "|-" '-' hs
  refine ⟨hs, by decide, ?_, h.2.2 0⟩
  rw [h.1]
  decide

/-! ## Lemmas: the entries the iterator reaches -/

theorem lookup_entry_mem (n : String) (cs : List (String × Entry)) (e : Entry)
    (h : lookup_entry n cs = some e) : (n, e) ∈ cs := by
  induction cs with
  | nil => simp [lookup_entry] at h
  | cons x rest ih =>
    obtain ⟨m, e'⟩ := x
    simp only [lookup_entry] at h
    split_ifs at h with hm
    · simp only [Option.some.injEq] at h
      subst h; subst hm
      exact List.mem_cons_self _ _
    · exact List.mem_cons_of_mem _ (ih h)

theorem lookup_entry_name (n : String) (cs : List (String × Entry)) (e : Entry)
    (h : lookup_entry n cs = some e) : n ∈ cs.map Prod.fst :=
  List.mem_map.2 ⟨(n, e), lookup_entry_mem n cs e h, rfl⟩

theorem iterate_mem (d : Nat) (p : Path) (cs : List (String × Entry)) (n : String)
    (e : Entry) (h : (n, e) ∈ cs) :
    (d, p ++ [n], e) ∈ iterate d p cs
      ∧ ∀ x ∈ descend (d + 1) (p ++ [n]) e, x ∈ iterate d p cs := by
  induction cs with
  | nil => simp at h
  | cons y rest ih =>
    obtain ⟨m, e'⟩ := y
    simp only [iterate, List.mem_cons, List.mem_append]
    rcases List.mem_cons.1 h with heq | hmem
    · simp only [Prod.mk.injEq] at heq
      obtain ⟨rfl, rfl⟩ := heq
      exact ⟨Or.inl rfl, fun x hx => Or.inr (Or.inl hx)⟩
    · obtain ⟨h1, h2⟩ := ih hmem
      exact ⟨Or.inr (Or.inr h1), fun x hx => Or.inr (Or.inr (h2 x hx))⟩

theorem descend_of_resolve (s : List String) :
    ∀ (e : Entry) (d : Nat) (p : Path) (e' : Entry), s ≠ [] → resolve e s = some e' →
      ∃ d', (d', p ++ s, e') ∈ descend d p e := by
  induction s with
  | nil => intro _ _ _ _ h; exact absurd rfl h
  | cons n s ih =>
    intro e d p e' _ hres
    cases e with
    | file size mt => simp [resolve] at hres
    | other mt => simp [resolve] at hres
    | dir mt listable cs =>
      cases listable with
      | false => simp [resolve] at hres
      | true =>
        simp only [resolve] at hres
        cases hl : lookup_entry n cs with
        | none => simp [hl] at hres
        | some e1 =>
          rw [hl] at hres
          simp only [] at hres
          have hmem := lookup_entry_mem n cs e1 hl
          obtain ⟨h1, h2⟩ := iterate_mem d p cs n e1 hmem
          simp only [descend]
          cases s with
          | nil =>
            simp only [resolve, Option.some.injEq] at hres
            subst hres
            exact ⟨d, h1⟩
          | cons n' s' =>
            obtain ⟨d', hd'⟩ := ih e1 (d + 1) (p ++ [n]) e' (by simp) hres
            refine ⟨d', ?_⟩
            have := h2 _ hd'
            simpa [List.append_assoc] using this

mutual
theorem resolve_of_descend : ∀ (e : Entry) (d : Nat) (p : Path) (x : Nat × Path × Entry),
    distinct_names e = true → x ∈ descend d p e →
      ∃ s, s ≠ [] ∧ x.2.1 = p ++ s ∧ resolve e s = some x.2.2
  | .dir mt true cs, d, p, x, hn, hx => by
    simp only [distinct_names, Bool.and_eq_true, decide_eq_true_eq] at hn
    simp only [descend] at hx
    obtain ⟨n, s, h1, h2⟩ := resolve_of_iterate cs d p x hn.1 hn.2 hx
    refine ⟨n :: s, by simp, h1, ?_⟩
    simp only [resolve]
    cases hl : lookup_entry n cs with
    | none => simp [hl] at h2
    | some e1 => simpa [hl] using h2
  | .dir _ false _, _, _, x, _, hx => by simp [descend] at hx
  | .file _ _, _, _, x, _, hx => by simp [descend] at hx
  | .other _, _, _, x, _, hx => by simp [descend] at hx
theorem resolve_of_iterate : ∀ (cs : List (String × Entry)) (d : Nat) (p : Path)
    (x : Nat × Path × Entry),
    (cs.map Prod.fst).Nodup → distinct_names_list cs = true → x ∈ iterate d p cs →
      ∃ n s, x.2.1 = p ++ n :: s ∧ (lookup_entry n cs).bind (fun e => resolve e s) = some x.2.2
  | [], _, _, x, _, _, hx => by simp [iterate] at hx
  | (n, e) :: rest, d, p, x, hnd, hn, hx => by
    simp only [distinct_names_list, Bool.and_eq_true] at hn
    simp only [List.map_cons, List.nodup_cons] at hnd
    simp only [iterate, List.mem_cons, List.mem_append] at hx
    rcases hx with rfl | hx | hx
    · exact ⟨n, [], by simp, by simp [lookup_entry, resolve]⟩
    · obtain ⟨s, -, h1, h2⟩ := resolve_of_descend e (d + 1) (p ++ [n]) x hn.1 hx
      exact ⟨n, s, by simpa [List.append_assoc] using h1, by simp [lookup_entry, h2]⟩
    · obtain ⟨n', s, h1, h2⟩ := resolve_of_iterate rest d p x hnd.2 hn.2 hx
      refine ⟨n', s, h1, ?_⟩
      cases hl : lookup_entry n' rest with
      | none => simp [hl] at h2
      | some e1 =>
        have hne : n ≠ n' := by
          intro h
          subst h
          exact hnd.1 (lookup_entry_name _ _ _ hl)
        simp only [lookup_entry, hne, if_false, hl]
        simpa [hl] using h2
end

theorem resolve_append (a : List String) :
    ∀ (e : Entry) (b : List String),
      resolve e (a ++ b) = (resolve e a).bind (fun e' => resolve e' b) := by
  induction a with
  | nil => intro e b; simp [resolve]
  | cons n a ih =>
    intro e b
    cases e with
    | file size mt => cases b <;> simp [resolve]
    | other mt => cases b <;> simp [resolve]
    | dir mt listable cs =>
      cases listable with
      | false => simp [resolve]
      | true =>
        simp only [List.cons_append, resolve]
        cases lookup_entry n cs with
        | none => simp
        | some e1 => simp [ih]

theorem iterate_first_name (cs : List (String × Entry)) (d : Nat) (p : Path)
    (x : Nat × Path × Entry) (hnd : (cs.map Prod.fst).Nodup)
    (hn : distinct_names_list cs = true) (hx : x ∈ iterate d p cs) :
    ∃ n s, n ∈ cs.map Prod.fst ∧ x.2.1 = p ++ n :: s := by
  obtain ⟨n, s, h1, h2⟩ := resolve_of_iterate cs d p x hnd hn hx
  cases hl : lookup_entry n cs with
  | none => simp [hl] at h2
  | some e1 => exact ⟨n, s, lookup_entry_name _ _ _ hl, h1⟩

mutual
theorem descend_nodup : ∀ (e : Entry) (d : Nat) (p : Path), distinct_names e = true →
    ((descend d p e).map (fun x => x.2.1)).Nodup
  | .dir mt true cs, d, p, hn => by
    simp only [distinct_names, Bool.and_eq_true, decide_eq_true_eq] at hn
    simp only [descend]
    exact iterate_nodup cs d p hn.1 hn.2
  | .dir _ false _, _, _, _ => by simp [descend]
  | .file _ _, _, _, _ => by simp [descend]
  | .other _, _, _, _ => by simp [descend]
theorem iterate_nodup : ∀ (cs : List (String × Entry)) (d : Nat) (p : Path),
    (cs.map Prod.fst).Nodup → distinct_names_list cs = true →
    ((iterate d p cs).map (fun x => x.2.1)).Nodup
  | [], _, _, _, _ => by simp [iterate]
  | (n, e) :: rest, d, p, hnd, hn => by
    have hn' := hn
    simp only [distinct_names_list, Bool.and_eq_true] at hn'
    have hnd' := hnd
    simp only [List.map_cons, List.nodup_cons] at hnd'
    have hD : ∀ x ∈ descend (d + 1) (p ++ [n]) e, ∃ s, s ≠ [] ∧ x.2.1 = p ++ n :: s := by
      intro x hx
      obtain ⟨s, hs, h1, -⟩ := resolve_of_descend e (d + 1) (p ++ [n]) x hn'.1 hx
      exact ⟨s, hs, by simpa [List.append_assoc] using h1⟩
    have hI : ∀ x ∈ iterate d p rest, ∃ n' s, n' ≠ n ∧ x.2.1 = p ++ n' :: s := by
      intro x hx
      obtain ⟨n', s, hmem, h1⟩ := iterate_first_name rest d p x hnd'.2 hn'.2 hx
      refine ⟨n', s, ?_, h1⟩
      intro h
      subst h
      exact hnd'.1 hmem
    simp only [iterate, List.map_cons, List.map_append, List.nodup_cons, List.mem_append,
      List.mem_map, not_or, not_exists, not_and]
    refine ⟨⟨?_, ?_⟩, ?_⟩
    · intro x hx heq
      obtain ⟨s, hs, h1⟩ := hD x hx
      rw [h1] at heq
      have := List.append_cancel_left heq
      simp only [List.cons.injEq, true_and] at this
      exact hs this
    · intro x hx heq
      obtain ⟨n', s, hne, h1⟩ := hI x hx
      rw [h1] at heq
      have := List.append_cancel_left heq
      simp only [List.cons.injEq] at this
      exact hne this.1
    · rw [List.nodup_append]
      refine ⟨descend_nodup e (d + 1) (p ++ [n]) hn'.1,
        iterate_nodup rest d p hnd'.2 hn'.2, ?_⟩
      intro q hq1 hq2
      obtain ⟨x, hx, rfl⟩ := List.mem_map.1 hq1
      obtain ⟨y, hy, hxy⟩ := List.mem_map.1 hq2
      obtain ⟨s, -, h1⟩ := hD x hx
      obtain ⟨n', s', hne, h2⟩ := hI y hy
      rw [h1, h2] at hxy
      have := List.append_cancel_left hxy
      simp only [List.cons.injEq] at this
      exact hne this.1
end

theorem countP_path_eq_one {l : List ChildInfo} (hnd : (l.map (fun c => c.path)).Nodup)
    {c : ChildInfo} (hc : c ∈ l) :
    l.countP (fun c' => decide (c'.path = c.path)) = 1 := by
  induction l with
  | nil => simp at hc
  | cons y ys ih =>
    simp only [List.map_cons, List.nodup_cons, List.mem_map, not_exists, not_and] at hnd
    rw [List.countP_cons]
    rcases List.mem_cons.1 hc with rfl | hmem
    · have hzero : ys.countP (fun c' => decide (c'.path = c.path)) = 0 := by
        rw [List.countP_eq_zero]
        intro z hz
        simp only [decide_eq_true_eq]
        exact hnd.1 z hz
      simp [hzero]
    · have hne : ¬ y.path = c.path := fun h => hnd.1 c hmem h.symm
      simp [hne, ih hnd.2 hmem]

theorem resolve_unlistable (mt : Option Int) (cs : List (String × Entry))
    (s : List String) (hs : s ≠ []) : resolve (.dir mt false cs) s = none := by
  cases s with
  | nil => exact absurd rfl hs
  | cons n s => simp [resolve]

/-- C16 (the code departs from the claim).  `DirInfo(p)` has no handler around its
loop, and the constructor of a record throws when the status of the entry cannot be
queried: on the directory `root/` holding `a.txt` and `d/`, where `d/` can be listed
but not searched and holds `locked/`, the iterator lists `a.txt`, `d` and `d/locked`
(and nothing below `locked/`), and the flat scan ends with `fs::filesystem_error`
instead of a result.  What holds: let the names in every directory of the tree be
pairwise distinct and let `locked/`, at the relative path `s₀`, be a directory that is
reached but whose listing is denied.  Then every result of the flat scan holds exactly
one record at the path of `locked/`, of type Directory, no record at a path below it,
and a record of the right type for every entry that can be reached through
directories that can be listed; and the scan returns a result whenever the status of
every enumerated entry can be queried and the root's own modification time can be
read. -/
theorem flat_throws_on_unstatable_entry :
    ((recursive_directory_iterator scenario_path unsearchable_root).map (fun it => it.2.1)
        = [["root", "a.txt"], ["root", "d"], ["root", "d", "locked"]]
      ∧ DirInfo.flat_at scenario_tz unsearchable_access scenario_path (some unsearchable_root)
          = .error .filesystem_error)
    ∧ ∀ (tz : Int → Option String) (fs : Access) (p : Path) (mt : Option Int)
        (listable : Bool) (cs : List (String × Entry)),
      distinct_names (.dir mt listable cs) = true →
      ∀ (s₀ : List String) (mtl : Option Int) (csl : List (String × Entry)), s₀ ≠ [] →
      resolve (.dir mt listable cs) s₀ = some (.dir mtl false csl) →
      (∀ r, DirInfo.flat_at tz fs p (some (.dir mt listable cs)) = .ok r →
        (∃ c ∈ r.childs, c.path = p ++ s₀ ∧ c.type = .Directory)
          ∧ r.childs.countP (fun c => decide (c.path = p ++ s₀)) = 1
          ∧ (∀ c ∈ r.childs, ∀ s, s ≠ [] → c.path ≠ p ++ s₀ ++ s)
          ∧ (∀ s e, s ≠ [] → resolve (.dir mt listable cs) s = some e →
              ∃ c ∈ r.childs, c.path = p ++ s ∧ c.type = e.kind))
      ∧ ((∀ it ∈ recursive_directory_iterator p (.dir mt listable cs),
            fs.statable it.2.1 = true) →
          ∀ t, mt = some t →
            ∃ r, DirInfo.flat_at tz fs p (some (.dir mt listable cs)) = .ok r) := by
  refine ⟨⟨by decide, rfl⟩, ?_⟩
  intro tz fs p mt listable cs hnames s₀ mtl csl hs₀ hlocked
  constructor
  · intro r hr
    obtain ⟨-, -, -, -, -, -, -, -, hch, -⟩ := flat_at_dir_fields tz fs p _ _ _ r hr
    have hperm : r.childs.Perm (enumerated_records_at tz fs p (.dir mt listable cs)) := by
      rw [hch]; exact sort_childs_perm _
    have hmem : ∀ c, c ∈ r.childs ↔
        ∃ it ∈ recursive_directory_iterator p (.dir mt listable cs),
          ChildInfo.record_at tz fs p it.2.1 it.2.2 = c := by
      intro c
      rw [hperm.mem_iff]
      unfold enumerated_records_at
      exact List.mem_map
    have hreach : ∀ s e, s ≠ [] → resolve (.dir mt listable cs) s = some e →
        ∃ c ∈ r.childs, c.path = p ++ s ∧ c.type = e.kind := by
      intro s e hs hres
      obtain ⟨d', hd'⟩ := descend_of_resolve s (.dir mt listable cs) 0 p e hs hres
      exact ⟨ChildInfo.record_at tz fs p (p ++ s) e, (hmem _).2 ⟨_, hd', rfl⟩,
        record_at_path _ _ _ _ _, record_at_type _ _ _ _ _⟩
    have hnd : (r.childs.map (fun c => c.path)).Nodup := by
      rw [(hperm.map _).nodup_iff]
      have h := descend_nodup (.dir mt listable cs) 0 p hnames
      have hmap : (enumerated_records_at tz fs p (.dir mt listable cs)).map (fun c => c.path)
          = (recursive_directory_iterator p (.dir mt listable cs)).map (fun x => x.2.1) := by
        simp only [enumerated_records_at, List.map_map]
        apply List.map_congr_left
        intro x _
        exact record_at_path _ _ _ _ _
      rw [hmap]
      exact h
    obtain ⟨c₀, hc₀, hpath, htype⟩ := hreach s₀ _ hs₀ hlocked
    refine ⟨⟨c₀, hc₀, hpath, htype⟩, ?_, ?_, hreach⟩
    · rw [← hpath]
      exact countP_path_eq_one hnd hc₀
    · intro c hc s hs heq
      obtain ⟨it, hit, rfl⟩ := (hmem c).1 hc
      obtain ⟨s', -, h1, h2⟩ := resolve_of_descend _ 0 p it hnames hit
      rw [record_at_path, h1, List.append_assoc] at heq
      have hs' := List.append_cancel_left heq
      rw [hs', resolve_append, hlocked] at h2
      have h3 : resolve (.dir mtl false csl) s = some it.2.2 := h2
      rw [resolve_unlistable mtl csl s hs] at h3
      cases h3
  · intro hst t ht
    subst ht
    exact flat_at_dir_returns tz fs p t listable cs hst

/-- Witness of C16: in the scenario tree with `locked/`, a directory whose listing is
denied but whose status can be queried, the flat scan returns; its records are a.txt,
locked (Directory), sub and sub/b.txt, one of them at the path of `locked/` and none
below it. -/
theorem flat_throws_on_unstatable_entry_witness :
    distinct_names locked_root = true
      ∧ ∃ r, DirInfo.flat_at scenario_tz Access.ideal scenario_path (some locked_root) = .ok r
          ∧ r.childs.map (fun c => (c.path, c.type))
              = [(["root", "a.txt"], Kind.File), (["root", "locked"], Kind.Directory),
                 (["root", "sub"], Kind.Directory), (["root", "sub", "b.txt"], Kind.File)]
          ∧ r.childs.countP (fun c => decide (c.path = ["root", "locked"])) = 1
          ∧ ∀ c ∈ r.childs, ∀ s, s ≠ [] → c.path ≠ ["root", "locked"] ++ s := by
  have h := flat_throws_on_unstatable_entry.2 scenario_tz Access.ideal scenario_path (some 50)
    true locked_children (by decide) ["locked"] (some 150)
    [("secret.txt", .file (some 5) (some 160))] (by decide) rfl
  obtain ⟨r, hr⟩ := h.2 (fun _ _ => rfl) 50 rfl
  obtain ⟨-, h2, h3, -⟩ := h.1 r hr
  refine ⟨by decide, r, hr, ?_, h2, h3⟩
  rw [(flat_at_dir_fields _ _ _ _ _ _ r hr).2.2.2.2.2.2.2.2.1]
  decide

end MyBackup
